import Mathlib

/-!
Shallow embedding of the core logic of `ai_face_assistant_app.py`:
the market classifier `identify_market`, the dataframe normalizer
`preprocess_dataframe`, the indicator engine
`calculate_technical_indicators`, and the signal classifier
`analyze_stock`.

Modelling conventions:
* pandas cell values are modelled by `Cell`: a string, a rational number
  (floats are modelled exactly as rationals), a parsed datetime
  (modelled as an integer sort key), or the missing marker `na`
  (NaN / NaT).
* a DataFrame is a `Table`: an optional datetime index, a header of
  column names, and rows of cells.  Column access `df[c]` is by the
  first column whose name equals `c`; a missing column or a short row
  reads as `na` (the places where pandas would raise instead are only
  reachable outside the pipeline built by the program).
* `pd.to_datetime` is modelled on ISO `YYYY-MM-DD` strings; numbers
  and already-parsed datetimes parse to their integer value, `NaN`
  parses to `NaT`.  `pd.to_numeric(errors="coerce")` is modelled on
  signed decimal literals.
* `sort_values` is modelled by a stable merge sort with NaN sorted
  last (pandas puts NaN last with `na_position="last"`; its tie order
  among equal keys is unspecified).
-/

namespace FaceAssistant

/-! ### Python string helpers -/

/-- `str.strip()`: drop whitespace from both ends. -/
def pyStrip (s : List Char) : List Char :=
  ((s.dropWhile Char.isWhitespace).reverse.dropWhile Char.isWhitespace).reverse

/-- `str.isalpha()`: nonempty and every character alphabetic. -/
def pyIsAlpha (s : List Char) : Bool :=
  !s.isEmpty && s.all Char.isAlpha

/-- `str.isdigit()`: nonempty and every character a digit. -/
def pyIsDigit (s : List Char) : Bool :=
  !s.isEmpty && s.all Char.isDigit

/-- `str.zfill(n)`: left-pad with `'0'` up to length `n`. -/
def zfill (n : Nat) (s : List Char) : List Char :=
  List.replicate (n - s.length) '0' ++ s

/-- Does `p` occur as a contiguous run at the head of `s`? -/
def listStartsWith : List Char → List Char → Bool
  | [], _ => true
  | _ :: _, [] => false
  | p :: ps, c :: cs => p == c && listStartsWith ps cs

/-- Python `x in s` on strings: `p` occurs contiguously inside `s`. -/
def listContainsSub (p : List Char) : List Char → Bool
  | [] => p.isEmpty
  | c :: cs => listStartsWith p (c :: cs) || listContainsSub p cs

/-- `any(x in s for x in pats)`. -/
def listContainsAny (s : List Char) (pats : List (List Char)) : Bool :=
  pats.any (fun p => listContainsSub p s)

/-! ### identify_market (source lines 14-36) -/

/-- The three market tags returned by `identify_market`:
`'A'` (A股), `'H'` (港股), `'US'` (美股). -/
inductive Market where
  | A : Market
  | H : Market
  | US : Market
deriving DecidableEq

/-- `identify_market(stock_code)` from the source: trim and uppercase,
alphabetic → US, 6 digits → A, 1-5 digits → H zero-padded to 5,
anything else → A with the code unchanged. -/
def identify_market (stock_code : List Char) : Market × List Char :=
  let code := (pyStrip stock_code).map Char.toUpper
  if pyIsAlpha code then (Market.US, code)
  else if pyIsDigit code then
    if code.length = 6 then (Market.A, code)
    else if 1 ≤ code.length ∧ code.length ≤ 5 then (Market.H, zfill 5 code)
    else (Market.A, code)
  else (Market.A, code)

/-! ### Cells and tables -/

/-- One pandas cell: a raw string, an exact numeric value, a parsed
datetime (as an integer sort key), or the missing marker (NaN/NaT). -/
inductive Cell where
  | str : List Char → Cell
  | num : ℚ → Cell
  | dt : Int → Cell
  | na : Cell
deriving DecidableEq

abbrev ColName := List Char

/-- A pandas DataFrame: an optional (unnamed) DatetimeIndex, a header
of column names, and the rows. -/
structure Table where
  dtindex : Option (List Int)
  header : List ColName
  rows : List (List Cell)
deriving DecidableEq

/-- Index of the first column named `c` (`header.length` if absent). -/
def Table.colIdx (t : Table) (c : ColName) : Nat :=
  t.header.findIdx (fun x => x == c)

/-- `df[c]` as a list of cells; absent columns and short rows read as
`na`. -/
def Table.col (t : Table) (c : ColName) : List Cell :=
  t.rows.map (fun r => r.getD (t.colIdx c) Cell.na)

/-- `df[c] = vals`: overwrite the column if present, else append it. -/
def Table.setCol (t : Table) (c : ColName) (vals : List Cell) : Table :=
  if t.colIdx c < t.header.length then
    { t with rows := t.rows.zipWith (fun r v => r.set (t.colIdx c) v) vals }
  else
    { t with header := t.header ++ [c],
             rows := t.rows.zipWith (fun r v => r ++ [v]) vals }

/-- Well-formed table: every row has exactly one cell per column. -/
def Table.WF (t : Table) : Prop :=
  ∀ r ∈ t.rows, r.length = t.header.length

/-! ### Canonical column names and the synonym table (lines 153-173) -/

def cDate : ColName := "Date".toList
def cOpen : ColName := "Open".toList
def cClose : ColName := "Close".toList
def cHigh : ColName := "High".toList
def cLow : ColName := "Low".toList
def cVolume : ColName := "Volume".toList
def cAmount : ColName := "Amount".toList
def cMA5 : ColName := "MA5".toList
def cMA20 : ColName := "MA20".toList
def cMA50 : ColName := "MA50".toList
def cDIF : ColName := "DIF".toList
def cDEA : ColName := "DEA".toList
def cMACD : ColName := "MACD".toList

/-- The per-column renaming of lines 154-173: lower-case the name and
test the synonym substrings in source order; unmatched names are kept
(the code only renames matched columns). -/
def renameCol (c : ColName) : ColName :=
  let s := c.map Char.toLower
  if listContainsAny s ["日期".toList, "date".toList] then cDate
  else if listContainsAny s ["开盘".toList, "open".toList] then cOpen
  else if listContainsAny s ["收盘".toList, "close".toList] then cClose
  else if listContainsAny s ["最高".toList, "high".toList] then cHigh
  else if listContainsAny s ["最低".toList, "low".toList] then cLow
  else if listContainsAny s ["成交量".toList, "volume".toList, "交易量".toList] then cVolume
  else if listContainsAny s ["成交额".toList, "amount".toList, "交易额".toList] then cAmount
  else c

/-- Lines 154-173: build `col_map` and rename.  Renaming with an empty
`col_map` is the identity, so the `if col_map:` guard is absorbed. -/
def renameStep (t : Table) : Table :=
  { t with header := t.header.map renameCol }

/-! ### Date handling (lines 176-182) -/

/-- Digits to a natural number. -/
def digitsToNat (ds : List Char) : Nat :=
  ds.foldl (fun n c => n * 10 + (c.toNat - 48)) 0

/-- `pd.to_datetime` on one ISO `YYYY-MM-DD` string, as the sort key
`y*10000 + m*100 + d`. -/
def parseDateStr (s : List Char) : Option Int :=
  match s with
  | [y1, y2, y3, y4, '-', m1, m2, '-', d1, d2] =>
    if [y1, y2, y3, y4, m1, m2, d1, d2].all Char.isDigit then
      let y := digitsToNat [y1, y2, y3, y4]
      let m := digitsToNat [m1, m2]
      let d := digitsToNat [d1, d2]
      if 1 ≤ m ∧ m ≤ 12 ∧ 1 ≤ d ∧ d ≤ 31 then
        some (Int.ofNat (y * 10000 + m * 100 + d))
      else none
    else none
  | _ => none

/-- `pd.to_datetime` on one cell: NaN → NaT, datetimes stay, numbers
convert to their integer key, strings must parse. -/
def parseDateCell : Cell → Option Cell
  | Cell.na => some Cell.na
  | Cell.dt d => some (Cell.dt d)
  | Cell.num q => some (Cell.dt q.floor)
  | Cell.str s => (parseDateStr s).map Cell.dt

/-- `pd.to_datetime` on a whole column (default `errors="raise"`): all
cells must parse, otherwise the call raises and the `except: pass`
leaves the column untouched. -/
def parseDatesAll : List Cell → Option (List Cell)
  | [] => some []
  | c :: cs =>
    match parseDateCell c, parseDatesAll cs with
    | some c2, some cs2 => some (c2 :: cs2)
    | _, _ => none

/-- Lines 176-182: if a `Date` column exists, try to parse it in place
(a failure anywhere keeps the whole column as it was); otherwise, if
the table has a DatetimeIndex, `reset_index().rename(columns=...)`
promotes the index to a leading `Date` column. -/
def dateStep (t : Table) : Table :=
  if cDate ∈ t.header then
    match parseDatesAll (t.col cDate) with
    | some parsed => t.setCol cDate parsed
    | none => t
  else
    match t.dtindex with
    | some idx =>
      { dtindex := none, header := cDate :: t.header,
        rows := List.zipWith (fun d r => Cell.dt d :: r) idx t.rows }
    | none => t

/-! ### Sorting and truncation (lines 189-193) -/

/-- Lexicographic order on strings by character code. -/
def strLe : List Char → List Char → Bool
  | [], _ => true
  | _ :: _, [] => false
  | a :: xs, b :: ys =>
    if a.toNat < b.toNat then true
    else if b.toNat < a.toNat then false
    else strLe xs ys

/-- Order on cells used to model `sort_values` on a column the sorter
can actually order, i.e. whose non-missing cells all share one kind
(`preprocess_dataframe_exc` and `sortRaises` make the `TypeError` that
pandas raises on a mixed-kind column explicit): values compare within
a kind, missing cells sort last (pandas masks NaN out and appends it);
the cross-kind ranking (datetimes, numbers, strings) is a total
completion that is only exercised on the raise path, which the
collapsed `preprocess_dataframe` runs through instead of raising. -/
def cellLe : Cell → Cell → Bool
  | Cell.dt x, Cell.dt y => decide (x ≤ y)
  | Cell.dt _, _ => true
  | Cell.num _, Cell.dt _ => false
  | Cell.num x, Cell.num y => decide (x ≤ y)
  | Cell.num _, _ => true
  | Cell.str _, Cell.dt _ => false
  | Cell.str _, Cell.num _ => false
  | Cell.str x, Cell.str y => strLe x y
  | Cell.str _, _ => true
  | Cell.na, Cell.na => true
  | Cell.na, _ => false

/-- Stable insertion step: place `x` before the first element it is
`le`-below-or-equal to. -/
def insertBy {α : Type} (le : α → α → Bool) (x : α) : List α → List α
  | [] => [x]
  | y :: ys => if le x y then x :: y :: ys else y :: insertBy le x ys

/-- Stable insertion sort modelling `sort_values` (pandas's tie order
among equal keys is unspecified; this model keeps source order). -/
def sortBy {α : Type} (le : α → α → Bool) : List α → List α
  | [] => []
  | x :: xs => insertBy le x (sortBy le xs)

/-- Lines 189-193: with a `Date` column, `sort_values("Date")`, keep
the last 120 rows, `reset_index(drop=True)` (the index is dropped);
without one, `tail(120).copy()` keeps the index. -/
def sortStep (t : Table) : Table :=
  if cDate ∈ t.header then
    let j := t.colIdx cDate
    let sorted := sortBy (fun r1 r2 => cellLe (r1.getD j Cell.na) (r2.getD j Cell.na)) t.rows
    { dtindex := none, header := t.header, rows := sorted.drop (sorted.length - 120) }
  else
    { t with dtindex := t.dtindex.map (fun l => l.drop (l.length - 120)),
             rows := t.rows.drop (t.rows.length - 120) }

/-! ### Numeric coercion (lines 196-199) -/

/-- `pd.to_numeric` on one signed decimal string. -/
def parseRat (s : List Char) : Option ℚ :=
  let core := fun (r : List Char) (sign : ℚ) =>
    let ds := r.takeWhile Char.isDigit
    let rest := r.dropWhile Char.isDigit
    match rest with
    | [] => if ds.isEmpty then none else some (sign * (digitsToNat ds : ℚ))
    | '.' :: fs =>
      if fs.all Char.isDigit && !(ds.isEmpty && fs.isEmpty) then
        some (sign * ((digitsToNat ds : ℚ) + (digitsToNat fs : ℚ) / ((10 : ℚ) ^ fs.length)))
      else none
    | _ => none
  match s with
  | '-' :: r => core r (-1)
  | '+' :: r => core r 1
  | r => core r 1

/-- `pd.to_numeric(cell, errors="coerce")`: numbers stay, parsable
strings convert, datetimes convert to their integer value, everything
else becomes the missing marker. -/
def coerceCell : Cell → Cell
  | Cell.num q => Cell.num q
  | Cell.str s =>
    match parseRat s with
    | some q => Cell.num q
    | none => Cell.na
  | Cell.dt d => Cell.num (d : ℚ)
  | Cell.na => Cell.na

def numericCols : List ColName := [cClose, cOpen, cHigh, cLow, cVolume, cAmount]

/-- One step of the numeric-coercion loop body (lines 197-199): coerce
the column when it is present. -/
def coerceOne (u : Table) (c : ColName) : Table :=
  if c ∈ u.header then u.setCol c ((u.col c).map coerceCell) else u

/-- Lines 196-199: coerce each numeric column that is present. -/
def coerceStep (t : Table) : Table :=
  numericCols.foldl coerceOne t

/-! ### preprocess_dataframe (lines 149-201) -/

/-- `preprocess_dataframe(df)` from the source: rename columns, handle
the date column, fail (return `None`) when no `Close` column resolved,
then sort/truncate and coerce the numeric columns.  This variant
collapses the `TypeError` that `sort_values` raises on a mixed-kind
`Date` column into the total-order sort; `preprocess_dataframe_exc`
below makes that exception path explicit. -/
def preprocess_dataframe (t : Table) : Option Table :=
  let t1 := dateStep (renameStep t)
  if cClose ∈ t1.header then some (coerceStep (sortStep t1)) else none

/-- Heap-level embedding of `preprocess_dataframe` that tracks which
Python object each operation targets.  The caller's DataFrame is heap
cell 0; `df = df.copy()` (line 151) allocates cell 1 and rebinds the
local name, so the in-place operations (`rename(inplace=True)`,
`df["Date"] = ...`, `df[col] = ...`) mutate the copy or a later fresh
object (`reset_index`, `sort_values(...).reset_index(...)`,
`tail(...).copy()` each return new objects).  Returns the final heap
and the heap address of the result (`none` models `return None`). -/
def preprocess_dataframe_heap (input : Table) : List Table × Option Nat :=
  let h1 : List Table := [input, input]
  let h2 := h1.set 1 (renameStep input)
  let t2 := renameStep input
  let step3 : List Table × Nat × Table :=
    if cDate ∈ t2.header then (h2.set 1 (dateStep t2), 1, dateStep t2)
    else
      match t2.dtindex with
      | some _ => (h2 ++ [dateStep t2], 2, dateStep t2)
      | none => (h2, 1, t2)
  let h3 := step3.1
  let t3 := step3.2.2
  if cClose ∈ t3.header then
    let h4 := h3 ++ [sortStep t3]
    let h5 := h4.set (h4.length - 1) (coerceStep (sortStep t3))
    (h5, some (h4.length - 1))
  else (h3, none)

/-! ### calculate_technical_indicators (lines 203-217) -/

/-- Numeric view of a cell (non-numbers read as missing). -/
def cellNum : Cell → Option ℚ
  | Cell.num q => some q
  | _ => none

/-- Store an optional numeric value back into a cell. -/
def optNum : Option ℚ → Cell
  | some q => Cell.num q
  | none => Cell.na

/-- The trailing window `close[max(0, i-w+1) .. i]`. -/
def windowSlice (w i : Nat) (xs : List (Option ℚ)) : List (Option ℚ) :=
  (xs.take (i + 1)).drop (i + 1 - w)

/-- `rolling(window=w, min_periods=1).mean()` at one index: the mean
of the non-missing values in the trailing window, missing only when
the whole window is missing. -/
def rollingMeanAt (w : Nat) (xs : List (Option ℚ)) (i : Nat) : Option ℚ :=
  let vals := (windowSlice w i xs).filterMap id
  if vals.length = 0 then none else some (vals.sum / (vals.length : ℚ))

/-- `rolling(window=w, min_periods=1).mean()` over the whole series. -/
def rollingMean (w : Nat) (xs : List (Option ℚ)) : List (Option ℚ) :=
  (List.range xs.length).map (rollingMeanAt w xs)

/-- State of pandas `ewm(adjust=False, ignore_na=False).mean()`: the
current average (missing until the first observation) and the weight
of the old average, which decays by `1-α` across missing inputs and
resets to 1 after each valid one. -/
structure EwmState where
  mean : Option ℚ
  wt : ℚ
deriving DecidableEq

/-- One `ewm` update (pandas `adjust=False`, `ignore_na=False`). -/
def ewmStep (a : ℚ) (st : EwmState) (x : Option ℚ) : EwmState :=
  match st.mean, x with
  | none, none => st
  | none, some v => ⟨some v, 1⟩
  | some m, none => ⟨some m, st.wt * (1 - a)⟩
  | some m, some v =>
    let w2 := st.wt * (1 - a)
    ⟨some ((w2 * m + a * v) / (w2 + a)), 1⟩

/-- Run `ewm`, emitting the average after every input. -/
def ewmGo (a : ℚ) (st : EwmState) : List (Option ℚ) → List (Option ℚ)
  | [] => []
  | x :: xs =>
    let st2 := ewmStep a st x
    st2.mean :: ewmGo a st2 xs

/-- `series.ewm(span=s, adjust=False).mean()` with `a = 2/(s+1)`. -/
def ewm (a : ℚ) (xs : List (Option ℚ)) : List (Option ℚ) :=
  ewmGo a ⟨none, 1⟩ xs

/-- NaN-propagating subtraction of two aligned series values. -/
def optSub : Option ℚ → Option ℚ → Option ℚ
  | some x, some y => some (x - y)
  | _, _ => none

/-- `calculate_technical_indicators(df)` from the source: MA5/MA20/MA50
by rolling means with `min_periods=1`, then the MACD family from
`ewm(span=12/26, adjust=False)` on `Close` and `ewm(span=9)` on the
stored `DIF` column (each assignment reads `df["Close"]`, which none
of the assignments modify, so it is read once here). -/
def calculate_technical_indicators (t : Table) : Table :=
  let close := (t.col cClose).map cellNum
  let t1 := t.setCol cMA5 ((rollingMean 5 close).map optNum)
  let t2 := t1.setCol cMA20 ((rollingMean 20 close).map optNum)
  let t3 := t2.setCol cMA50 ((rollingMean 50 close).map optNum)
  let ema12 := ewm (2 / 13) close
  let ema26 := ewm (2 / 27) close
  let t4 := t3.setCol cDIF ((List.zipWith optSub ema12 ema26).map optNum)
  let dif := (t4.col cDIF).map cellNum
  let t5 := t4.setCol cDEA ((ewm (2 / 10) dif).map optNum)
  let dea := (t5.col cDEA).map cellNum
  let t6 := t5.setCol cMACD
    ((List.zipWith (fun x y => (optSub x y).map (fun z => 2 * z)) dif dea).map optNum)
  t6

/-! ### analyze_stock (lines 222-262) -/

/-- The distinct mood messages of `analyze_stock`. -/
inductive Mood where
  | bullish : Mood
  | bearish : Mood
  | neutral : Mood
  | partialData : List ColName → Mood
  | noIndicators : Mood
  | noData : Mood
deriving DecidableEq

/-- The distinct forward-trend messages of `analyze_stock`. -/
inductive Trend where
  | up : Trend
  | down : Trend
  | range : Trend
  | unknown : Trend
deriving DecidableEq

/-- The triple returned by `analyze_stock`; the price-range string is
modelled by the numeric pair it formats (`none` when the latest close
is missing, where the code would format NaN, or in the branches that
return the no-range message). -/
structure Verdict where
  mood : Mood
  band : Option (ℚ × ℚ)
  trend : Trend
deriving DecidableEq

/-- `analyze_stock(df)` from the source: empty data → no verdict; any
missing MA at the latest row → the insufficiency message listing the
available MAs; otherwise the strict three-way comparison of
(MA5, MA20, MA50) with a fixed percentage band around the latest
close. -/
def analyze_stock (t : Table) : Verdict :=
  if t.rows.isEmpty || t.header.isEmpty then ⟨Mood.noData, none, Trend.unknown⟩
  else
    let latest := t.rows.getLastD []
    let ma5 := cellNum (latest.getD (t.colIdx cMA5) Cell.na)
    let ma20 := cellNum (latest.getD (t.colIdx cMA20) Cell.na)
    let ma50 := cellNum (latest.getD (t.colIdx cMA50) Cell.na)
    let price := cellNum (latest.getD (t.colIdx cClose) Cell.na)
    match ma5, ma20, ma50 with
    | some s, some m, some l =>
      if s > m ∧ m > l then
        ⟨Mood.bullish, price.map (fun c => (c * (0.95 : ℚ), c * (1.05 : ℚ))), Trend.up⟩
      else if s < m ∧ m < l then
        ⟨Mood.bearish, price.map (fun c => (c * (0.85 : ℚ), c * (0.95 : ℚ))), Trend.down⟩
      else
        ⟨Mood.neutral, price.map (fun c => (c * (0.9 : ℚ), c * (1.1 : ℚ))), Trend.range⟩
    | _, _, _ =>
      let avail :=
        (if ma5.isSome then [cMA5] else []) ++
        (if ma20.isSome then [cMA20] else []) ++
        (if ma50.isSome then [cMA50] else [])
      if avail.isEmpty then ⟨Mood.noIndicators, none, Trend.unknown⟩
      else ⟨Mood.partialData avail, none, Trend.unknown⟩

/-! ### Spec-side EMA recurrence (for the refinement claims) -/

/-- Helper for `emaRecSpec`: continue the recurrence from `y`. -/
def emaGoSpec (a : ℚ) (y : ℚ) : List ℚ → List ℚ
  | [] => []
  | x :: xs =>
    let y2 := a * x + (1 - a) * y
    y2 :: emaGoSpec a y2 xs

/-- The spec's EMA recurrence, written from the spec's words:
`EMA[0] = close[0]`, `EMA[i] = α·close[i] + (1-α)·EMA[i-1]`. -/
def emaRecSpec (a : ℚ) : List ℚ → List ℚ
  | [] => []
  | x :: xs => x :: emaGoSpec a x xs

/-! ### Concrete tables used as counterexample inputs -/

/-- Two rows sharing the timestamp `2024-01-02`, with distinct closes. -/
def dupDateTable : Table :=
  { dtindex := none,
    header := ["date".toList, "close".toList],
    rows := [[Cell.str "2024-01-02".toList, Cell.num 1],
             [Cell.str "2024-01-02".toList, Cell.num 2]] }

/-- Closes `[1, missing, 2]`: a gap in the middle of the series. -/
def gapCloseTable : Table :=
  { dtindex := none,
    header := [cClose],
    rows := [[Cell.num 1], [Cell.na], [Cell.num 2]] }

end FaceAssistant

/-! ## setCol layer -/

namespace FaceAssistant

theorem strLe_total (a b : List Char) : strLe a b = true ∨ strLe b a = true := by
  induction a generalizing b with
  | nil => left; rfl
  | cons x xs ih =>
    cases b with
    | nil => right; rfl
    | cons y ys =>
      by_cases h1 : x.toNat < y.toNat
      · left; simp [strLe, h1]
      · by_cases h2 : y.toNat < x.toNat
        · right; simp [strLe, h2]
        · rcases ih ys with h | h
          · left; simpa [strLe, h1, h2] using h
          · right; simpa [strLe, h1, h2] using h

theorem strLe_trans {a b c : List Char} (h1 : strLe a b = true) (h2 : strLe b c = true) :
    strLe a c = true := by
  induction a generalizing b c with
  | nil => rfl
  | cons x xs ih =>
    cases b with
    | nil => simp [strLe] at h1
    | cons y ys =>
      cases c with
      | nil => simp [strLe] at h2
      | cons z zs =>
        simp only [strLe] at h1 h2 ⊢
        by_cases hxy : x.toNat < y.toNat
        · by_cases hyz : y.toNat < z.toNat
          · have : x.toNat < z.toNat := Nat.lt_trans hxy hyz
            simp [this]
          · by_cases hzy : z.toNat < y.toNat
            · simp [hyz, hzy] at h2
            · have hyez : y.toNat = z.toNat := Nat.le_antisymm (Nat.le_of_not_lt hzy) (Nat.le_of_not_lt hyz)
              have : x.toNat < z.toNat := hyez ▸ hxy
              simp [this]
        · by_cases hyx : y.toNat < x.toNat
          · simp [hxy, hyx] at h1
          · have hxey : x.toNat = y.toNat := Nat.le_antisymm (Nat.le_of_not_lt hyx) (Nat.le_of_not_lt hxy)
            by_cases hyz : y.toNat < z.toNat
            · have : x.toNat < z.toNat := hxey ▸ hyz
              simp [this]
            · by_cases hzy : z.toNat < y.toNat
              · simp [hyz, hzy] at h2
              · have hxz : ¬ x.toNat < z.toNat := by omega
                have hzx : ¬ z.toNat < x.toNat := by omega
                rw [if_neg hxz, if_neg hzx]
                rw [if_neg hxy, if_neg hyx] at h1
                rw [if_neg hyz, if_neg hzy] at h2
                exact ih h1 h2

theorem cellLe_total (a b : Cell) : (cellLe a b || cellLe b a) = true := by
  cases a <;> cases b <;> simp [cellLe] <;>
    first
      | exact Int.le_total _ _
      | exact le_total _ _
      | (rcases strLe_total _ _ with h | h
         · exact Or.inl h
         · exact Or.inr h)

/-! ### Table access lemmas -/

theorem colIdx_lt_iff_mem (t : Table) (c : ColName) :
    t.colIdx c < t.header.length ↔ c ∈ t.header := by
  unfold Table.colIdx
  rw [List.findIdx_lt_length]
  constructor
  · rintro ⟨x, hx, hxc⟩
    have : x = c := by simpa using hxc
    rwa [this] at hx
  · intro h
    exact ⟨c, h, by simp⟩

theorem colIdx_eq_length_of_not_mem (t : Table) (c : ColName) (h : c ∉ t.header) :
    t.colIdx c = t.header.length := by
  unfold Table.colIdx
  rw [List.findIdx_eq_length]
  intro x hx
  simp only [beq_eq_false_iff_ne, ne_eq]
  intro he
  exact h (he ▸ hx)

theorem header_getElem_colIdx (t : Table) (c : ColName) (h : t.colIdx c < t.header.length) :
    t.header[t.colIdx c] = c := by
  have h2 := @List.findIdx_getElem _ (fun x => x == c) t.header h
  simpa using h2

theorem colIdx_ne (t : Table) {c c' : ColName} (hc : t.colIdx c < t.header.length)
    (hne : c ≠ c') : t.colIdx c ≠ t.colIdx c' := by
  intro he
  have hc' : t.colIdx c' < t.header.length := he ▸ hc
  have h1 : t.header[t.colIdx c]? = some c := by
    rw [List.getElem?_eq_getElem hc, header_getElem_colIdx t c hc]
  have h2 : t.header[t.colIdx c']? = some c' := by
    rw [List.getElem?_eq_getElem hc', header_getElem_colIdx t c' hc']
  rw [he, h2] at h1
  exact hne (by simpa using h1.symm)

theorem col_length (t : Table) (c : ColName) : (t.col c).length = t.rows.length := by
  simp [Table.col]

theorem col_of_not_mem (t : Table) (c : ColName) (hWF : t.WF) (h : c ∉ t.header) :
    t.col c = t.rows.map (fun _ => Cell.na) := by
  unfold Table.col
  apply List.map_congr_left
  intro r hr
  rw [List.getD_eq_getElem?_getD, List.getElem?_eq_none]
  · rfl
  · rw [hWF r hr, colIdx_eq_length_of_not_mem t c h]

/-! ### getD/set helper lemmas -/

theorem getD_set_self {l : List Cell} {j : Nat} (h : j < l.length) (v : Cell) :
    (l.set j v).getD j Cell.na = v := by
  simp [List.getD_eq_getElem?_getD, List.getElem?_set, h]

theorem getD_set_ne {l : List Cell} {j j' : Nat} (h : j ≠ j') (v : Cell) :
    (l.set j v).getD j' Cell.na = l.getD j' Cell.na := by
  simp [List.getD_eq_getElem?_getD, List.getElem?_set_ne h]

theorem set_getD_self : ∀ (l : List Cell) (j : Nat), j < l.length →
    l.set j (l.getD j Cell.na) = l := by
  intro l
  induction l with
  | nil => intro j h; simp at h
  | cons x xs ih =>
    intro j h
    cases j with
    | zero => simp
    | succ j =>
      simp only [List.getD_cons_succ, List.set_cons_succ, List.cons.injEq, true_and]
      exact ih j (by simpa using h)

theorem getD_append_self {r : List Cell} (v : Cell) :
    (r ++ [v]).getD r.length Cell.na = v := by
  rw [List.getD_eq_getElem?_getD, List.getElem?_append_right (Nat.le_refl _)]
  simp

theorem getD_append_ne {r : List Cell} {j : Nat} (h : j ≠ r.length) (v : Cell) :
    (r ++ [v]).getD j Cell.na = r.getD j Cell.na := by
  rcases Nat.lt_or_ge j r.length with hj | hj
  · rw [List.getD_eq_getElem?_getD, List.getElem?_append_left hj, ← List.getD_eq_getElem?_getD]
  · have hj2 : r.length < j := lt_of_le_of_ne hj (Ne.symm h)
    rw [List.getD_eq_getElem?_getD, List.getD_eq_getElem?_getD]
    rw [List.getElem?_eq_none (by simpa using hj2), List.getElem?_eq_none (by omega)]

/-! ### zipWith row-update lemmas -/

theorem map_getD_zipWith_set (j : Nat) :
    ∀ (rows : List (List Cell)) (vals : List Cell),
      vals.length = rows.length → (∀ r ∈ rows, j < r.length) →
      (List.zipWith (fun r v => r.set j v) rows vals).map (fun r => r.getD j Cell.na) = vals := by
  intro rows
  induction rows with
  | nil =>
    intro vals h _
    rw [List.length_nil, List.length_eq_zero] at h
    simp [h]
  | cons r rs ih =>
    intro vals h hj
    cases vals with
    | nil => simp at h
    | cons v vs =>
      simp only [List.zipWith_cons_cons, List.map_cons]
      rw [getD_set_self (hj r (by simp)) v,
        ih vs (by simpa using h) (fun r2 hr2 => hj r2 (by simp [hr2]))]

theorem map_getD_zipWith_set_ne (j j' : Nat) (hne : j ≠ j') :
    ∀ (rows : List (List Cell)) (vals : List Cell),
      vals.length = rows.length →
      (List.zipWith (fun r v => r.set j v) rows vals).map (fun r => r.getD j' Cell.na)
        = rows.map (fun r => r.getD j' Cell.na) := by
  intro rows
  induction rows with
  | nil => intro vals _; simp
  | cons r rs ih =>
    intro vals h
    cases vals with
    | nil => simp at h
    | cons v vs =>
      simp only [List.zipWith_cons_cons, List.map_cons]
      rw [getD_set_ne hne v, ih vs (by simpa using h)]

theorem map_getD_zipWith_append (j : Nat) :
    ∀ (rows : List (List Cell)) (vals : List Cell),
      vals.length = rows.length → (∀ r ∈ rows, r.length = j) →
      (List.zipWith (fun r v => r ++ [v]) rows vals).map (fun r => r.getD j Cell.na) = vals := by
  intro rows
  induction rows with
  | nil =>
    intro vals h _
    rw [List.length_nil, List.length_eq_zero] at h
    simp [h]
  | cons r rs ih =>
    intro vals h hj
    cases vals with
    | nil => simp at h
    | cons v vs =>
      simp only [List.zipWith_cons_cons, List.map_cons]
      have hr : r.length = j := hj r (by simp)
      have h1 : (r ++ [v]).getD j Cell.na = v := by
        rw [← hr]; exact getD_append_self v
      rw [h1, ih vs (by simpa using h) (fun r2 hr2 => hj r2 (by simp [hr2]))]

theorem map_getD_zipWith_append_ne (j : Nat) :
    ∀ (rows : List (List Cell)) (vals : List Cell),
      vals.length = rows.length → (∀ r ∈ rows, j ≠ r.length) →
      (List.zipWith (fun r v => r ++ [v]) rows vals).map (fun r => r.getD j Cell.na)
        = rows.map (fun r => r.getD j Cell.na) := by
  intro rows
  induction rows with
  | nil => intro vals _ _; simp
  | cons r rs ih =>
    intro vals h hj
    cases vals with
    | nil => simp at h
    | cons v vs =>
      simp only [List.zipWith_cons_cons, List.map_cons]
      rw [getD_append_ne (hj r (by simp)) v,
        ih vs (by simpa using h) (fun r2 hr2 => hj r2 (by simp [hr2]))]

theorem map_getD_ge (j : Nat) (rows : List (List Cell)) (hj : ∀ r ∈ rows, r.length ≤ j) :
    rows.map (fun r => r.getD j Cell.na) = rows.map (fun _ => Cell.na) := by
  apply List.map_congr_left
  intro r hr
  rw [List.getD_eq_getElem?_getD, List.getElem?_eq_none (hj r hr)]
  rfl

theorem map_getD_zipWith_append_ge (j : Nat) :
    ∀ (rows : List (List Cell)) (vals : List Cell),
      vals.length = rows.length → (∀ r ∈ rows, r.length + 1 ≤ j) →
      (List.zipWith (fun r v => r ++ [v]) rows vals).map (fun r => r.getD j Cell.na)
        = rows.map (fun _ => Cell.na) := by
  intro rows
  induction rows with
  | nil => intro vals _ _; simp
  | cons r rs ih =>
    intro vals h hj
    cases vals with
    | nil => simp at h
    | cons v vs =>
      simp only [List.zipWith_cons_cons, List.map_cons]
      have hr : r.length + 1 ≤ j := hj r (by simp)
      have h1 : (r ++ [v]).getD j Cell.na = Cell.na := by
        rw [List.getD_eq_getElem?_getD, List.getElem?_eq_none (by simpa using hr)]
        rfl
      rw [h1, ih vs (by simpa using h) (fun r2 hr2 => hj r2 (by simp [hr2]))]

theorem cellLe_trans (a b c : Cell) :
    cellLe a b = true → cellLe b c = true → cellLe a c = true := by
  cases a <;> cases b <;> cases c <;> simp [cellLe] <;> intro h1 h2 <;>
    first
      | omega
      | exact le_trans h1 h2
      | exact strLe_trans h1 h2

/-! ### setCol lemmas -/

theorem colIdx_mk (d : Option (List Int)) (h : List ColName) (r : List (List Cell))
    (c : ColName) :
    Table.colIdx ⟨d, h, r⟩ c = List.findIdx (fun x => x == c) h := rfl

theorem col_mk (d : Option (List Int)) (h : List ColName) (r : List (List Cell))
    (c : ColName) :
    Table.col ⟨d, h, r⟩ c
      = r.map (fun rr => rr.getD (List.findIdx (fun x => x == c) h) Cell.na) := rfl

theorem colIdx_eq_findIdx (t : Table) (c : ColName) :
    t.colIdx c = List.findIdx (fun x => x == c) t.header := rfl

theorem setCol_dtindex (t : Table) (c : ColName) (vals : List Cell) :
    (t.setCol c vals).dtindex = t.dtindex := by
  unfold Table.setCol
  split <;> rfl

theorem setCol_header_of_mem (t : Table) (c : ColName) (vals : List Cell)
    (h : c ∈ t.header) : (t.setCol c vals).header = t.header := by
  unfold Table.setCol
  rw [if_pos ((colIdx_lt_iff_mem t c).mpr h)]

theorem setCol_header_of_not_mem (t : Table) (c : ColName) (vals : List Cell)
    (h : c ∉ t.header) : (t.setCol c vals).header = t.header ++ [c] := by
  unfold Table.setCol
  rw [if_neg (by rw [colIdx_lt_iff_mem]; exact h)]

theorem mem_setCol_header (t : Table) (c : ColName) (vals : List Cell) :
    c ∈ (t.setCol c vals).header := by
  by_cases h : c ∈ t.header
  · rw [setCol_header_of_mem t c vals h]; exact h
  · rw [setCol_header_of_not_mem t c vals h]; simp

theorem mem_setCol_header_of_mem (t : Table) (c c' : ColName) (vals : List Cell)
    (h : c' ∈ t.header) : c' ∈ (t.setCol c vals).header := by
  by_cases hm : c ∈ t.header
  · rw [setCol_header_of_mem t c vals hm]; exact h
  · rw [setCol_header_of_not_mem t c vals hm]; simp [h]

theorem setCol_rows_length (t : Table) (c : ColName) (vals : List Cell)
    (h : vals.length = t.rows.length) :
    (t.setCol c vals).rows.length = t.rows.length := by
  unfold Table.setCol
  split <;> simp [List.length_zipWith, h]

theorem setCol_WF (t : Table) (c : ColName) (vals : List Cell)
    (hWF : t.WF) (_hlen : vals.length = t.rows.length) : (t.setCol c vals).WF := by
  unfold Table.setCol
  split
  · intro r hr
    simp only at hr
    rw [List.mem_iff_getElem?] at hr
    obtain ⟨i, hi⟩ := hr
    rw [List.getElem?_zipWith] at hi
    rcases h1 : t.rows[i]? with _ | r0
    · rw [h1] at hi; simp at hi
    rcases h2 : vals[i]? with _ | v0
    · rw [h1, h2] at hi; simp at hi
    rw [h1, h2] at hi
    simp only [Option.some.injEq] at hi
    have hr0 : r0 ∈ t.rows := List.getElem?_mem h1
    rw [← hi]
    simpa using hWF r0 hr0
  · intro r hr
    simp only [List.length_append, List.length_cons, List.length_nil] at hr ⊢
    rw [List.mem_iff_getElem?] at hr
    obtain ⟨i, hi⟩ := hr
    rw [List.getElem?_zipWith] at hi
    rcases h1 : t.rows[i]? with _ | r0
    · rw [h1] at hi; simp at hi
    rcases h2 : vals[i]? with _ | v0
    · rw [h1, h2] at hi; simp at hi
    rw [h1, h2] at hi
    simp only [Option.some.injEq] at hi
    have hr0 : r0 ∈ t.rows := List.getElem?_mem h1
    rw [← hi]
    simp [hWF r0 hr0]

theorem setCol_col (t : Table) (c : ColName) (vals : List Cell)
    (hWF : t.WF) (hlen : vals.length = t.rows.length) :
    (t.setCol c vals).col c = vals := by
  unfold Table.setCol
  by_cases hm : t.colIdx c < t.header.length
  · rw [if_pos hm]
    rw [col_mk, ← colIdx_eq_findIdx]
    exact map_getD_zipWith_set (t.colIdx c) t.rows vals hlen
      (fun r hr => by rw [hWF r hr]; exact hm)
  · rw [if_neg hm]
    have hnm : c ∉ t.header := by rwa [colIdx_lt_iff_mem] at hm
    have hfi : List.findIdx (fun x => x == c) t.header = t.header.length :=
      colIdx_eq_length_of_not_mem t c hnm
    rw [col_mk]
    have hidx : List.findIdx (fun x => x == c) (t.header ++ [c]) = t.header.length := by
      rw [List.findIdx_append, if_neg (by rw [hfi]; exact lt_irrefl _)]
      simp [List.findIdx_cons]
    rw [hidx]
    exact map_getD_zipWith_append t.header.length t.rows vals hlen (fun r hr => hWF r hr)

theorem setCol_col_ne (t : Table) (c c' : ColName) (vals : List Cell)
    (hne : c' ≠ c) (hWF : t.WF) (hlen : vals.length = t.rows.length) :
    (t.setCol c vals).col c' = t.col c' := by
  unfold Table.setCol
  by_cases hm : t.colIdx c < t.header.length
  · rw [if_pos hm]
    rw [col_mk, ← colIdx_eq_findIdx]
    show _ = t.rows.map (fun r => r.getD (t.colIdx c') Cell.na)
    exact map_getD_zipWith_set_ne (t.colIdx c) (t.colIdx c') (colIdx_ne t hm (fun h => hne h.symm))
      t.rows vals hlen
  · rw [if_neg hm]
    have hnm : c ∉ t.header := by rwa [colIdx_lt_iff_mem] at hm
    have hfi : List.findIdx (fun x => x == c) t.header = t.header.length :=
      colIdx_eq_length_of_not_mem t c hnm
    rw [col_mk]
    show _ = t.rows.map (fun r => r.getD (t.colIdx c') Cell.na)
    by_cases hm' : c' ∈ t.header
    · have hlt : List.findIdx (fun x => x == c') t.header < t.header.length :=
        (colIdx_lt_iff_mem t c').mpr hm'
      have hidx : List.findIdx (fun x => x == c') (t.header ++ [c]) = t.colIdx c' := by
        rw [List.findIdx_append, if_pos hlt]; rfl
      rw [hidx]
      exact map_getD_zipWith_append_ne (t.colIdx c') t.rows vals hlen
        (fun r hr => by rw [hWF r hr]; exact Nat.ne_of_lt hlt)
    · have hfi2 : List.findIdx (fun x => x == c') t.header = t.header.length :=
        colIdx_eq_length_of_not_mem t c' hm'
      have hone : List.findIdx (fun x => x == c') [c] = 1 := by
        have hbeq : (c == c') = false := by
          simp only [beq_eq_false_iff_ne, ne_eq]
          intro h
          exact hne h.symm
        simp [List.findIdx, List.findIdx.go, hbeq]
      have hidx : List.findIdx (fun x => x == c') (t.header ++ [c]) = t.header.length + 1 := by
        rw [List.findIdx_append, if_neg (by rw [hfi2]; exact lt_irrefl _), hone]
        omega
      rw [hidx]
      rw [colIdx_eq_findIdx, hfi2]
      rw [map_getD_ge t.header.length t.rows (fun r hr => Nat.le_of_eq (hWF r hr))]
      exact map_getD_zipWith_append_ge (t.header.length + 1) t.rows vals hlen
        (fun r hr => by rw [hWF r hr])

/-! ### zipWith membership helper -/

theorem exists_of_mem_zipWith {α β γ : Type} {f : α → β → γ} {as : List α} {bs : List β}
    {c : γ} (h : c ∈ List.zipWith f as bs) : ∃ a ∈ as, ∃ b ∈ bs, c = f a b := by
  rw [List.mem_iff_getElem?] at h
  obtain ⟨i, hi⟩ := h
  rw [List.getElem?_zipWith] at hi
  rcases h1 : as[i]? with _ | a0
  · rw [h1] at hi; simp at hi
  rcases h2 : bs[i]? with _ | b0
  · rw [h1, h2] at hi; simp at hi
  rw [h1, h2] at hi
  simp only [Option.some.injEq] at hi
  exact ⟨a0, List.getElem?_mem h1, b0, List.getElem?_mem h2, hi.symm⟩

/-! ### renameStep lemmas -/

theorem renameStep_rows (t : Table) : (renameStep t).rows = t.rows := rfl

theorem renameStep_header (t : Table) : (renameStep t).header = t.header.map renameCol := rfl

theorem renameStep_dtindex (t : Table) : (renameStep t).dtindex = t.dtindex := rfl

theorem renameStep_WF (t : Table) (hWF : t.WF) : (renameStep t).WF := by
  intro r hr
  rw [renameStep_rows] at hr
  rw [renameStep_header, List.length_map]
  exact hWF r hr

/-! ### dateStep lemmas -/

theorem parseDatesAll_length : ∀ (cs : List Cell) (l : List Cell),
    parseDatesAll cs = some l → l.length = cs.length := by
  intro cs
  induction cs with
  | nil => intro l h; simp [parseDatesAll] at h; simp [← h]
  | cons c cs2 ih =>
    intro l h
    simp only [parseDatesAll] at h
    rcases h1 : parseDateCell c with _ | c2 <;> rw [h1] at h
    · simp at h
    rcases h2 : parseDatesAll cs2 with _ | l2 <;> rw [h2] at h
    · simp at h
    simp only [Option.some.injEq] at h
    rw [← h]
    simp [ih l2 h2]

theorem cClose_ne_cDate : cClose ≠ cDate := by decide

theorem dateStep_header_close (t : Table) :
    (cClose ∈ (dateStep t).header) ↔ cClose ∈ t.header := by
  unfold dateStep
  by_cases hd : cDate ∈ t.header
  · rw [if_pos hd]
    rcases hp : parseDatesAll (t.col cDate) with _ | parsed
    · exact Iff.rfl
    · rw [setCol_header_of_mem t cDate parsed hd]
  · rw [if_neg hd]
    rcases hi : t.dtindex with _ | idx
    · exact Iff.rfl
    · simp only [List.mem_cons]
      constructor
      · rintro (h | h)
        · exact absurd h cClose_ne_cDate
        · exact h
      · intro h; exact Or.inr h

theorem dateStep_WF (t : Table) (hWF : t.WF) : (dateStep t).WF := by
  unfold dateStep
  by_cases hd : cDate ∈ t.header
  · rw [if_pos hd]
    rcases hp : parseDatesAll (t.col cDate) with _ | parsed
    · exact hWF
    · exact setCol_WF t cDate parsed hWF
        (by rw [parseDatesAll_length (t.col cDate) parsed hp, col_length])
  · rw [if_neg hd]
    rcases hi : t.dtindex with _ | idx
    · exact hWF
    · intro r hr
      simp only at hr ⊢
      obtain ⟨d, _, r0, hr0, he⟩ := exists_of_mem_zipWith hr
      rw [he]
      simp [hWF r0 hr0]

theorem dateStep_rows_length (t : Table) (hidx : t.dtindex = none) :
    (dateStep t).rows.length = t.rows.length := by
  unfold dateStep
  by_cases hd : cDate ∈ t.header
  · rw [if_pos hd]
    rcases hp : parseDatesAll (t.col cDate) with _ | parsed
    · rfl
    · exact setCol_rows_length t cDate parsed
        (by rw [parseDatesAll_length (t.col cDate) parsed hp, col_length])
  · rw [if_neg hd, hidx]

theorem length_insertBy {α : Type} (le : α → α → Bool) (x : α) :
    ∀ (l : List α), (insertBy le x l).length = l.length + 1 := by
  intro l
  induction l with
  | nil => rfl
  | cons y ys ih =>
    unfold insertBy
    by_cases h : le x y = true
    · rw [if_pos h]; rfl
    · rw [if_neg h]
      simp [ih]

theorem length_sortBy {α : Type} (le : α → α → Bool) :
    ∀ (l : List α), (sortBy le l).length = l.length := by
  intro l
  induction l with
  | nil => rfl
  | cons y ys ih =>
    unfold sortBy
    rw [length_insertBy, ih]
    rfl

theorem mem_insertBy {α : Type} (le : α → α → Bool) (x a : α) :
    ∀ (l : List α), a ∈ insertBy le x l ↔ a = x ∨ a ∈ l := by
  intro l
  induction l with
  | nil => simp [insertBy]
  | cons y ys ih =>
    unfold insertBy
    by_cases h : le x y = true
    · rw [if_pos h]
      simp
    · rw [if_neg h]
      simp only [List.mem_cons, ih]
      constructor
      · rintro (h1 | h1 | h1)
        · exact Or.inr (Or.inl h1)
        · exact Or.inl h1
        · exact Or.inr (Or.inr h1)
      · rintro (h1 | h1 | h1)
        · exact Or.inr (Or.inl h1)
        · exact Or.inl h1
        · exact Or.inr (Or.inr h1)

theorem mem_sortBy {α : Type} (le : α → α → Bool) (a : α) :
    ∀ (l : List α), a ∈ sortBy le l ↔ a ∈ l := by
  intro l
  induction l with
  | nil => simp [sortBy]
  | cons y ys ih =>
    unfold sortBy
    rw [mem_insertBy, ih]
    simp

theorem pairwise_insertBy {α : Type} (le : α → α → Bool)
    (htrans : ∀ a b c, le a b = true → le b c = true → le a c = true)
    (htotal : ∀ a b, (le a b || le b a) = true) (x : α) :
    ∀ (l : List α), List.Pairwise (fun a b => le a b = true) l →
      List.Pairwise (fun a b => le a b = true) (insertBy le x l) := by
  intro l
  induction l with
  | nil => intro _; exact List.pairwise_singleton _ _
  | cons y ys ih =>
    intro hP
    rw [List.pairwise_cons] at hP
    obtain ⟨hy, hys⟩ := hP
    unfold insertBy
    by_cases h : le x y = true
    · rw [if_pos h]
      rw [List.pairwise_cons]
      constructor
      · intro b hb
        rcases List.mem_cons.mp hb with h1 | h1
        · rw [h1]; exact h
        · exact htrans x y b h (hy b h1)
      · rw [List.pairwise_cons]
        exact ⟨hy, hys⟩
    · rw [if_neg h]
      rw [List.pairwise_cons]
      constructor
      · intro b hb
        rcases (mem_insertBy le x b ys).mp hb with h1 | h1
        · rw [h1]
          have := htotal x y
          rw [Bool.or_eq_true] at this
          rcases this with h2 | h2
          · exact absurd h2 h
          · exact h2
        · exact hy b h1
      · exact ih hys

theorem pairwise_sortBy {α : Type} (le : α → α → Bool)
    (htrans : ∀ a b c, le a b = true → le b c = true → le a c = true)
    (htotal : ∀ a b, (le a b || le b a) = true) :
    ∀ (l : List α), List.Pairwise (fun a b => le a b = true) (sortBy le l) := by
  intro l
  induction l with
  | nil => exact List.Pairwise.nil
  | cons y ys ih =>
    unfold sortBy
    exact pairwise_insertBy le htrans htotal y (sortBy le ys) ih

/-! ### sortStep lemmas -/

theorem sortStep_header (t : Table) : (sortStep t).header = t.header := by
  unfold sortStep
  split <;> rfl

theorem sortStep_WF (t : Table) (hWF : t.WF) : (sortStep t).WF := by
  unfold sortStep
  by_cases hd : cDate ∈ t.header
  · rw [if_pos hd]
    intro r hr
    simp only at hr ⊢
    have h1 : r ∈ sortBy
        (fun r1 r2 => cellLe (r1.getD (t.colIdx cDate) Cell.na) (r2.getD (t.colIdx cDate) Cell.na))
        t.rows :=
      (List.drop_sublist _ _).mem hr
    have h2 : r ∈ t.rows := (mem_sortBy _ r t.rows).mp h1
    exact hWF r h2
  · rw [if_neg hd]
    intro r hr
    simp only at hr ⊢
    exact hWF r ((List.drop_sublist _ _).mem hr)

theorem sortStep_rows_length (t : Table) :
    (sortStep t).rows.length = min 120 t.rows.length := by
  unfold sortStep
  by_cases hd : cDate ∈ t.header
  · rw [if_pos hd]
    simp only [List.length_drop, length_sortBy]
    omega
  · rw [if_neg hd]
    simp only [List.length_drop]
    omega

theorem sortStep_date_sorted (t : Table) (hWF : t.WF) :
    List.Pairwise (fun a b => cellLe a b = true) ((sortStep t).col cDate) := by
  unfold sortStep
  by_cases hd : cDate ∈ t.header
  · rw [if_pos hd]
    rw [col_mk]
    rw [List.pairwise_map]
    apply List.Pairwise.sublist (List.drop_sublist _ _)
    have htr : ∀ (a b c : List Cell),
        (fun r1 r2 => cellLe (r1.getD (t.colIdx cDate) Cell.na) (r2.getD (t.colIdx cDate) Cell.na)) a b = true →
        (fun r1 r2 => cellLe (r1.getD (t.colIdx cDate) Cell.na) (r2.getD (t.colIdx cDate) Cell.na)) b c = true →
        (fun r1 r2 => cellLe (r1.getD (t.colIdx cDate) Cell.na) (r2.getD (t.colIdx cDate) Cell.na)) a c = true := by
      intro a b c h1 h2
      exact cellLe_trans _ _ _ h1 h2
    have hto : ∀ (a b : List Cell),
        ((fun r1 r2 => cellLe (r1.getD (t.colIdx cDate) Cell.na) (r2.getD (t.colIdx cDate) Cell.na)) a b ||
         (fun r1 r2 => cellLe (r1.getD (t.colIdx cDate) Cell.na) (r2.getD (t.colIdx cDate) Cell.na)) b a) = true := by
      intro a b
      exact cellLe_total _ _
    exact pairwise_sortBy _ htr hto t.rows
  · rw [if_neg hd]
    have hWF2 : (Table.mk t.dtindex t.header (t.rows.drop (t.rows.length - 120))).WF := by
      intro r hr
      exact hWF r ((List.drop_sublist _ _).mem hr)
    have hnm : cDate ∉ (Table.mk t.dtindex t.header (t.rows.drop (t.rows.length - 120))).header := hd
    have hcol := col_of_not_mem _ cDate hWF2 hnm
    have : (Table.mk (t.dtindex.map (fun l => l.drop (l.length - 120))) t.header
        (t.rows.drop (t.rows.length - 120))).col cDate
        = (Table.mk t.dtindex t.header (t.rows.drop (t.rows.length - 120))).col cDate := rfl
    rw [this, hcol]
    rw [List.pairwise_map]
    clear hcol this hWF2 hnm
    induction (t.rows.drop (t.rows.length - 120)) with
    | nil => exact List.Pairwise.nil
    | cons r rs ih => exact List.Pairwise.cons (fun b _ => rfl) ih

/-! ### coerceStep lemmas -/

theorem coerceOne_header (u : Table) (c : ColName) : (coerceOne u c).header = u.header := by
  unfold coerceOne
  by_cases h : c ∈ u.header
  · rw [if_pos h]; exact setCol_header_of_mem u c _ h
  · rw [if_neg h]

theorem coerceOne_dtindex (u : Table) (c : ColName) : (coerceOne u c).dtindex = u.dtindex := by
  unfold coerceOne
  by_cases h : c ∈ u.header
  · rw [if_pos h]; exact setCol_dtindex u c _
  · rw [if_neg h]

theorem coerceOne_WF (u : Table) (c : ColName) (hWF : u.WF) : (coerceOne u c).WF := by
  unfold coerceOne
  by_cases h : c ∈ u.header
  · rw [if_pos h]
    exact setCol_WF u c _ hWF (by simp [col_length])
  · rw [if_neg h]; exact hWF

theorem coerceOne_rows_length (u : Table) (c : ColName) :
    (coerceOne u c).rows.length = u.rows.length := by
  unfold coerceOne
  by_cases h : c ∈ u.header
  · rw [if_pos h]
    exact setCol_rows_length u c _ (by simp [col_length])
  · rw [if_neg h]

theorem coerceOne_col_ne (u : Table) (c c' : ColName) (hne : c' ≠ c) (hWF : u.WF) :
    (coerceOne u c).col c' = u.col c' := by
  unfold coerceOne
  by_cases h : c ∈ u.header
  · rw [if_pos h]
    exact setCol_col_ne u c c' _ hne hWF (by simp [col_length])
  · rw [if_neg h]

theorem coerceOne_col_self (u : Table) (c : ColName) (hWF : u.WF) :
    (coerceOne u c).col c = if c ∈ u.header then (u.col c).map coerceCell else u.col c := by
  unfold coerceOne
  by_cases h : c ∈ u.header
  · rw [if_pos h, if_pos h]
    exact setCol_col u c _ hWF (by simp [col_length])
  · rw [if_neg h, if_neg h]

theorem foldl_coerceOne_header : ∀ (names : List ColName) (u : Table),
    (names.foldl coerceOne u).header = u.header := by
  intro names
  induction names with
  | nil => intro u; rfl
  | cons n ns ih =>
    intro u
    simp only [List.foldl_cons]
    rw [ih (coerceOne u n), coerceOne_header]

theorem foldl_coerceOne_WF : ∀ (names : List ColName) (u : Table), u.WF →
    (names.foldl coerceOne u).WF := by
  intro names
  induction names with
  | nil => intro u h; exact h
  | cons n ns ih =>
    intro u h
    simp only [List.foldl_cons]
    exact ih (coerceOne u n) (coerceOne_WF u n h)

theorem foldl_coerceOne_rows_length : ∀ (names : List ColName) (u : Table),
    (names.foldl coerceOne u).rows.length = u.rows.length := by
  intro names
  induction names with
  | nil => intro u; rfl
  | cons n ns ih =>
    intro u
    simp only [List.foldl_cons]
    rw [ih (coerceOne u n), coerceOne_rows_length]

theorem foldl_coerceOne_col : ∀ (names : List ColName) (u : Table), u.WF → names.Nodup →
    ∀ c, (names.foldl coerceOne u).col c
      = if c ∈ names ∧ c ∈ u.header then (u.col c).map coerceCell else u.col c := by
  intro names
  induction names with
  | nil =>
    intro u _ _ c
    simp
  | cons n ns ih =>
    intro u hWF hnd c
    simp only [List.foldl_cons]
    have hWF2 : (coerceOne u n).WF := coerceOne_WF u n hWF
    have hnd2 : ns.Nodup := (List.nodup_cons.mp hnd).2
    have hn_nin : n ∉ ns := (List.nodup_cons.mp hnd).1
    by_cases hcn : c = n
    · subst hcn
      rw [ih (coerceOne u c) hWF2 hnd2 c]
      rw [if_neg (by intro h; exact hn_nin h.1)]
      rw [coerceOne_col_self u c hWF]
      by_cases hch : c ∈ u.header
      · rw [if_pos hch, if_pos ⟨by simp, hch⟩]
      · rw [if_neg hch, if_neg (by intro h; exact hch h.2)]
    · rw [ih (coerceOne u n) hWF2 hnd2 c]
      rw [coerceOne_header]
      rw [coerceOne_col_ne u n c hcn hWF]
      by_cases hcns : c ∈ ns
      · by_cases hch : c ∈ u.header
        · rw [if_pos ⟨hcns, hch⟩, if_pos ⟨by simp [hcns], hch⟩]
        · rw [if_neg (by intro h; exact hch h.2), if_neg (by intro h; exact hch h.2)]
      · rw [if_neg (by intro h; exact hcns h.1)]
        have hcontra : ¬ (c ∈ n :: ns ∧ c ∈ u.header) := by
          intro h
          rcases List.mem_cons.mp h.1 with h2 | h2
          · exact hcn h2
          · exact hcns h2
        rw [if_neg hcontra]

/-! ### Character and classifier helper lemmas -/

theorem char_isDigit_not_isAlpha (c : Char) (h : c.isDigit = true) : c.isAlpha = false := by
  simp only [Char.isDigit] at h
  simp only [Char.isAlpha, Char.isUpper, Char.isLower]
  rw [Bool.and_eq_true, decide_eq_true_eq, decide_eq_true_eq] at h
  simp only [Bool.or_eq_false_iff, Bool.and_eq_false_iff]
  constructor
  · left
    simp only [decide_eq_false_iff_not]
    intro hle
    have h1 : ('0' : Char) ≤ '9' := by decide
    have h2 : ('9' : Char) < 'A' := by decide
    exact absurd (lt_of_lt_of_le (lt_of_le_of_lt h.2 h2) hle) (lt_irrefl _)
  · left
    simp only [decide_eq_false_iff_not]
    intro hle
    have h2 : ('9' : Char) < 'a' := by decide
    exact absurd (lt_of_lt_of_le (lt_of_le_of_lt h.2 h2) hle) (lt_irrefl _)

theorem pyIsDigit_not_pyIsAlpha (s : List Char) (h : pyIsDigit s = true) :
    pyIsAlpha s = false := by
  unfold pyIsDigit at h
  unfold pyIsAlpha
  rw [Bool.and_eq_true] at h
  obtain ⟨hne, hall⟩ := h
  cases s with
  | nil => simp at hne
  | cons c cs =>
    rw [List.all_cons, Bool.and_eq_true] at hall
    simp only [List.isEmpty_cons, Bool.not_false, Bool.true_and, List.all_cons]
    rw [char_isDigit_not_isAlpha c hall.1]
    rfl

theorem zfill_length (s : List Char) (h : s.length ≤ 5) : (zfill 5 s).length = 5 := by
  simp only [zfill, List.length_append, List.length_replicate]
  omega

theorem identify_market_alpha (s code : List Char)
    (hcode : code = (pyStrip s).map Char.toUpper) (ha : pyIsAlpha code = true) :
    identify_market s = (Market.US, code) := by
  subst hcode
  simp [identify_market, ha]

theorem identify_market_digit6 (s code : List Char)
    (hcode : code = (pyStrip s).map Char.toUpper)
    (hd : pyIsDigit code = true) (h6 : code.length = 6) :
    identify_market s = (Market.A, code) := by
  subst hcode
  have ha := pyIsDigit_not_pyIsAlpha _ hd
  rw [List.length_map] at h6
  simp [identify_market, ha, hd, h6]

theorem identify_market_digit_short (s code : List Char)
    (hcode : code = (pyStrip s).map Char.toUpper)
    (hd : pyIsDigit code = true) (h1 : 1 ≤ code.length) (h5 : code.length ≤ 5) :
    identify_market s = (Market.H, zfill 5 code) := by
  subst hcode
  have ha := pyIsDigit_not_pyIsAlpha _ hd
  rw [List.length_map] at h1 h5
  have h6 : ¬ (pyStrip s).length = 6 := by omega
  simp [identify_market, ha, hd, h6, h1, h5]

theorem identify_market_fallback (s code : List Char)
    (hcode : code = (pyStrip s).map Char.toUpper)
    (ha : pyIsAlpha code = false)
    (hcase : pyIsDigit code = false ∨ 7 ≤ code.length) :
    identify_market s = (Market.A, code) := by
  subst hcode
  rcases hcase with hd | h7
  · simp [identify_market, ha, hd]
  · rw [List.length_map] at h7
    by_cases hd : pyIsDigit ((pyStrip s).map Char.toUpper) = true
    · simp [identify_market, ha, hd]
      omega
    · rw [Bool.not_eq_true] at hd
      simp [identify_market, ha, hd]

theorem getLastD_mem {α : Type} : ∀ (l : List α) (d : α), l ≠ [] → l.getLastD d ∈ l := by
  intro l
  induction l with
  | nil => intro d h; exact absurd rfl h
  | cons x xs ih =>
    intro d _
    cases hxs : xs with
    | nil => simp
    | cons y ys =>
      have h1 : (x :: y :: ys).getLastD d = (y :: ys).getLastD x := rfl
      rw [h1]
      apply List.mem_cons_of_mem
      rw [← hxs]
      exact ih x (by rw [hxs]; exact List.cons_ne_nil y ys)

/-! ## Claim theorems -/

/-- C2: the symbol classifier is total: writing `code` for the trimmed
and uppercased input, an all-alphabetic `code` maps to the
international market (US) unchanged; an all-digit `code` of length 6
maps to the domestic market (A) unchanged; an all-digit `code` of
length 1-5 maps to the regional market (H) zero-padded to exactly 5
digits; any other shape falls back to the domestic market (A) with the
code unchanged.  (`identify_market` is a Lean function, hence total
and never raises.) -/
theorem C2_identify_market_total (s code : List Char)
    (hcode : code = (pyStrip s).map Char.toUpper) :
    (pyIsAlpha code = true → identify_market s = (Market.US, code))
    ∧ (pyIsDigit code = true → code.length = 6 → identify_market s = (Market.A, code))
    ∧ (pyIsDigit code = true → 1 ≤ code.length → code.length ≤ 5 →
        identify_market s = (Market.H, zfill 5 code) ∧ (zfill 5 code).length = 5)
    ∧ (pyIsAlpha code = false → (pyIsDigit code = false ∨ 7 ≤ code.length) →
        identify_market s = (Market.A, code)) := by
  refine ⟨?_, ?_, ?_, ?_⟩
  · intro ha
    exact identify_market_alpha s code hcode ha
  · intro hd h6
    exact identify_market_digit6 s code hcode hd h6
  · intro hd h1 h5
    exact ⟨identify_market_digit_short s code hcode hd h1 h5, zfill_length code h5⟩
  · intro ha hcase
    exact identify_market_fallback s code hcode ha hcase

/-- C2 witness: the four classifier shapes at concrete inputs
`" aapl "`, `"600519"`, `"700"` and `"a1"`. -/
theorem C2_identify_market_total_witness :
    identify_market " aapl ".toList = (Market.US, "AAPL".toList)
    ∧ identify_market "600519".toList = (Market.A, "600519".toList)
    ∧ identify_market "700".toList = (Market.H, "00700".toList)
    ∧ identify_market "a1".toList = (Market.A, "A1".toList) := by
  refine ⟨?_, ?_, ?_, ?_⟩
  · exact (C2_identify_market_total " aapl ".toList "AAPL".toList (by decide)).1 (by decide)
  · exact (C2_identify_market_total "600519".toList "600519".toList (by decide)).2.1
      (by decide) (by decide)
  · exact ((C2_identify_market_total "700".toList "700".toList (by decide)).2.2.1
      (by decide) (by decide) (by decide)).1
  · exact (C2_identify_market_total "a1".toList "A1".toList (by decide)).2.2.2
      (by decide) (Or.inl (by decide))

/-- C3 counterexample: the claim says 6-digit codes with leading digit
6 map to a different domestic sub-exchange (`B`) than codes with
leading digit 0 (`A`); in the code, `identify_market` returns the same
single domestic market `'A'` for both `"600519"` and `"000001"` — no
sub-exchange distinction exists. -/
theorem C3_counterexample :
    (identify_market "600519".toList).1 = (identify_market "000001".toList).1
    ∧ (identify_market "600519".toList).1 = Market.A
    ∧ (identify_market "000001".toList).1 = Market.A := by
  refine ⟨by decide, by decide, by decide⟩

/-- C3 (amended): every all-digit ticker of length 6 maps to the single
domestic market `'A'` with the code unchanged, regardless of its
leading digit: any two such tickers receive the same market. -/
theorem C3_amended_domestic_uniform (s s2 code code2 : List Char)
    (hcode : code = (pyStrip s).map Char.toUpper)
    (hcode2 : code2 = (pyStrip s2).map Char.toUpper)
    (hd : pyIsDigit code = true) (h6 : code.length = 6)
    (hd2 : pyIsDigit code2 = true) (h62 : code2.length = 6) :
    identify_market s = (Market.A, code)
    ∧ identify_market s2 = (Market.A, code2)
    ∧ (identify_market s).1 = (identify_market s2).1 := by
  have e1 := identify_market_digit6 s code hcode hd h6
  have e2 := identify_market_digit6 s2 code2 hcode2 hd2 h62
  exact ⟨e1, e2, by rw [e1, e2]⟩

/-- C3 (amended) witness: `"600519"` and `"000001"` both classify to
the domestic market `'A'` with the code unchanged. -/
theorem C3_amended_domestic_uniform_witness :
    identify_market "600519".toList = (Market.A, "600519".toList)
    ∧ identify_market "000001".toList = (Market.A, "000001".toList)
    ∧ (identify_market "600519".toList).1 = (identify_market "000001".toList).1 :=
  C3_amended_domestic_uniform "600519".toList "000001".toList
    "600519".toList "000001".toList (by decide) (by decide)
    (by decide) (by decide) (by decide) (by decide)

/-- C1: when the last bar of a series has MA5 (`s`), MA20 (`m`),
MA50 (`l`) and Close (`c`) all set, the signal classifier returns the
bullish mood with band exactly `[c*0.95, c*1.05]` iff `s > m > l`
strictly, the bearish mood with band exactly `[c*0.85, c*0.95]` iff
`s < m < l` strictly, otherwise the neutral mood with band exactly
`[c*0.90, c*1.10]`; and no input other than those four values affects
the verdict. -/
theorem C1_signal_classifier (t : Table) (s m l c : ℚ) (hWF : t.WF)
    (h5 : cellNum ((t.rows.getLastD []).getD (t.colIdx cMA5) Cell.na) = some s)
    (h20 : cellNum ((t.rows.getLastD []).getD (t.colIdx cMA20) Cell.na) = some m)
    (h50 : cellNum ((t.rows.getLastD []).getD (t.colIdx cMA50) Cell.na) = some l)
    (hc : cellNum ((t.rows.getLastD []).getD (t.colIdx cClose) Cell.na) = some c) :
    (analyze_stock t = ⟨Mood.bullish, some (c * (0.95 : ℚ), c * (1.05 : ℚ)), Trend.up⟩
        ↔ (s > m ∧ m > l))
    ∧ (analyze_stock t = ⟨Mood.bearish, some (c * (0.85 : ℚ), c * (0.95 : ℚ)), Trend.down⟩
        ↔ (s < m ∧ m < l))
    ∧ (¬ (s > m ∧ m > l) → ¬ (s < m ∧ m < l) →
        analyze_stock t = ⟨Mood.neutral, some (c * (0.9 : ℚ), c * (1.1 : ℚ)), Trend.range⟩)
    ∧ (∀ u : Table, u.WF →
        cellNum ((u.rows.getLastD []).getD (u.colIdx cMA5) Cell.na) = some s →
        cellNum ((u.rows.getLastD []).getD (u.colIdx cMA20) Cell.na) = some m →
        cellNum ((u.rows.getLastD []).getD (u.colIdx cMA50) Cell.na) = some l →
        cellNum ((u.rows.getLastD []).getD (u.colIdx cClose) Cell.na) = some c →
        analyze_stock u = analyze_stock t) := by
  have hform : ∀ u : Table, u.WF →
      cellNum ((u.rows.getLastD []).getD (u.colIdx cMA5) Cell.na) = some s →
      cellNum ((u.rows.getLastD []).getD (u.colIdx cMA20) Cell.na) = some m →
      cellNum ((u.rows.getLastD []).getD (u.colIdx cMA50) Cell.na) = some l →
      cellNum ((u.rows.getLastD []).getD (u.colIdx cClose) Cell.na) = some c →
      analyze_stock u =
        (if s > m ∧ m > l then
          ⟨Mood.bullish, some (c * (0.95 : ℚ), c * (1.05 : ℚ)), Trend.up⟩
         else if s < m ∧ m < l then
          ⟨Mood.bearish, some (c * (0.85 : ℚ), c * (0.95 : ℚ)), Trend.down⟩
         else ⟨Mood.neutral, some (c * (0.9 : ℚ), c * (1.1 : ℚ)), Trend.range⟩) := by
    intro u hWFu h5u h20u h50u hcu
    have hrows : u.rows ≠ [] := by
      intro h
      rw [h] at h5u
      simp [List.getLastD, cellNum] at h5u
    have hheader : u.header ≠ [] := by
      intro h
      have hmem : u.rows.getLastD [] ∈ u.rows := getLastD_mem u.rows [] hrows
      have hlen0 : (u.rows.getLastD []).length = 0 := by rw [hWFu _ hmem, h]; rfl
      have hnil : u.rows.getLastD [] = [] := List.length_eq_zero.mp hlen0
      rw [hnil] at h5u
      simp [List.getD, cellNum] at h5u
    have hre : u.rows.isEmpty = false := by
      cases hu : u.rows with
      | nil => exact absurd hu hrows
      | cons a as2 => rfl
    have hhe : u.header.isEmpty = false := by
      cases hu : u.header with
      | nil => exact absurd hu hheader
      | cons a as2 => rfl
    simp only [analyze_stock, hre, hhe, Bool.or_self, Bool.false_eq_true, if_false]
    rw [h5u, h20u, h50u, hcu]
    simp
  have hft := hform t hWF h5 h20 h50 hc
  refine ⟨?_, ?_, ?_, ?_⟩
  · rw [hft]
    by_cases hP : s > m ∧ m > l
    · rw [if_pos hP]
      exact ⟨fun _ => hP, fun _ => rfl⟩
    · rw [if_neg hP]
      constructor
      · intro h
        by_cases hQ : s < m ∧ m < l
        · rw [if_pos hQ] at h
          exact absurd h (by simp)
        · rw [if_neg hQ] at h
          exact absurd h (by simp)
      · intro hP2
        exact absurd hP2 hP
  · rw [hft]
    by_cases hP : s > m ∧ m > l
    · rw [if_pos hP]
      constructor
      · intro h
        exact absurd h (by simp)
      · intro hQ
        exact absurd hQ.1 (lt_asymm hP.1)
    · rw [if_neg hP]
      by_cases hQ : s < m ∧ m < l
      · rw [if_pos hQ]
        exact ⟨fun _ => hQ, fun _ => rfl⟩
      · rw [if_neg hQ]
        constructor
        · intro h
          exact absurd h (by simp)
        · intro hQ2
          exact absurd hQ2 hQ
  · intro hnP hnQ
    rw [hft, if_neg hnP, if_neg hnQ]
  · intro u hWFu h5u h20u h50u hcu
    rw [hform u hWFu h5u h20u h50u hcu, hft]

/-- C1 witness: on a one-row table with Close 100, MA5 3, MA20 2,
MA50 1 the bullish branch fires with band `(95, 105)`. -/
theorem C1_signal_classifier_witness :
    analyze_stock
      ⟨none, [cClose, cMA5, cMA20, cMA50],
        [[Cell.num 100, Cell.num 3, Cell.num 2, Cell.num 1]]⟩
      = ⟨Mood.bullish, some (95, 105), Trend.up⟩ := by
  have h := (C1_signal_classifier
    ⟨none, [cClose, cMA5, cMA20, cMA50],
      [[Cell.num 100, Cell.num 3, Cell.num 2, Cell.num 1]]⟩
    3 2 1 100 (by unfold Table.WF; decide) (by decide) (by decide) (by decide) (by decide)).1
  have hb := h.mpr (by norm_num)
  rw [hb]
  norm_num

/-- C10: the heap-level embedding of `preprocess_dataframe` never
writes to heap cell 0, the caller's table: after the call the input
object is unchanged (all renaming, date handling, sorting, truncation
and coercion happen on the `df.copy()` object or later fresh
objects). -/
theorem C10_preprocess_no_mutation (t : Table) :
    ((preprocess_dataframe_heap t).1).head? = some t := by
  unfold preprocess_dataframe_heap
  by_cases hd : cDate ∈ (renameStep t).header
  · simp only [if_pos hd]
    by_cases hc : cClose ∈ (dateStep (renameStep t)).header
    · simp [hc, List.set]
    · simp [hc, List.set]
  · simp only [if_neg hd]
    rcases hi : (renameStep t).dtindex with _ | idx
    · simp only [hi]
      by_cases hc : cClose ∈ (renameStep t).header
      · simp [hc, List.set]
      · simp [hc, List.set]
    · simp only [hi]
      by_cases hc : cClose ∈ (dateStep (renameStep t)).header
      · simp [hc, List.set]
      · simp [hc, List.set]

/-! ### preprocess_dataframe lemmas -/

theorem preprocess_eq_none_iff (t : Table) :
    preprocess_dataframe t = none ↔ cClose ∉ t.header.map renameCol := by
  have hiff : cClose ∈ (dateStep (renameStep t)).header ↔ cClose ∈ t.header.map renameCol := by
    rw [dateStep_header_close, renameStep_header]
  constructor
  · intro h
    intro hmem
    have hc : cClose ∈ (dateStep (renameStep t)).header := hiff.mpr hmem
    simp only [preprocess_dataframe, if_pos hc] at h
    exact Option.noConfusion h
  · intro h
    simp only [preprocess_dataframe, if_neg (fun hc => h (hiff.mp hc))]

theorem preprocess_some_form (t : Table) (C : Table) (h : preprocess_dataframe t = some C) :
    C = coerceStep (sortStep (dateStep (renameStep t))) := by
  simp only [preprocess_dataframe] at h
  by_cases hc : cClose ∈ (dateStep (renameStep t)).header
  · rw [if_pos hc] at h
    exact (Option.some.inj h).symm
  · rw [if_neg hc] at h
    exact absurd h (by simp)

theorem numericCols_nodup : numericCols.Nodup := by decide

theorem cDate_not_numeric : cDate ∉ numericCols := by decide

/-- C5 (amended): for every well-formed raw table that normalizes, the
canonical series is sorted ascending by timestamp (non-strictly), and
no rows are removed other than by the 120-bar truncation — rows with
duplicate timestamps are all retained, with no last-wins
de-duplication. -/
theorem C5_sorted_duplicates_kept (t : Table) (hWF : t.WF) :
    ∀ C, preprocess_dataframe t = some C →
      List.Pairwise (fun a b => cellLe a b = true) (C.col cDate)
      ∧ (t.dtindex = none → C.rows.length = min 120 t.rows.length) := by
  intro C hC
  have hCeq := preprocess_some_form t C hC
  have hWFu : (sortStep (dateStep (renameStep t))).WF :=
    sortStep_WF _ (dateStep_WF _ (renameStep_WF t hWF))
  have hfold : coerceStep (sortStep (dateStep (renameStep t)))
      = numericCols.foldl coerceOne (sortStep (dateStep (renameStep t))) := rfl
  have hdatecol : C.col cDate = (sortStep (dateStep (renameStep t))).col cDate := by
    rw [hCeq, hfold,
      foldl_coerceOne_col numericCols (sortStep (dateStep (renameStep t)))
        hWFu numericCols_nodup cDate]
    rw [if_neg (fun hand => cDate_not_numeric hand.1)]
  constructor
  · rw [hdatecol]
    exact sortStep_date_sorted _ (dateStep_WF _ (renameStep_WF t hWF))
  · intro hidx
    have h1 : C.rows.length = (sortStep (dateStep (renameStep t))).rows.length := by
      rw [hCeq, hfold, foldl_coerceOne_rows_length]
    have h2 := sortStep_rows_length (dateStep (renameStep t))
    have h3 : (dateStep (renameStep t)).rows.length = (renameStep t).rows.length :=
      dateStep_rows_length (renameStep t) (by rw [renameStep_dtindex]; exact hidx)
    rw [h1, h2, h3, renameStep_rows]

/-- C5 witness: the amended theorem applied to `dupDateTable`: the
output is sorted and keeps both rows (`min 120 2 = 2`). -/
theorem C5_sorted_duplicates_kept_witness :
    List.Pairwise (fun a b => cellLe a b = true)
      ((⟨none, [cDate, cClose],
        [[Cell.dt 20240102, Cell.num 1], [Cell.dt 20240102, Cell.num 2]]⟩ : Table).col cDate)
    ∧ (dupDateTable.dtindex = none →
        (⟨none, [cDate, cClose],
          [[Cell.dt 20240102, Cell.num 1], [Cell.dt 20240102, Cell.num 2]]⟩ : Table).rows.length
          = min 120 dupDateTable.rows.length) :=
  C5_sorted_duplicates_kept dupDateTable (by unfold Table.WF; decide)
    ⟨none, [cDate, cClose],
      [[Cell.dt 20240102, Cell.num 1], [Cell.dt 20240102, Cell.num 2]]⟩ (by rfl)

/-- C5 counterexample: `dupDateTable` has two source rows sharing the
timestamp 2024-01-02; the normalized series keeps both rows, so its
timestamp column contains a duplicate — the claim's "no duplicate
timestamps, last-wins" is false (nothing is de-duplicated). -/
theorem C5_counterexample :
    preprocess_dataframe dupDateTable
      = some ⟨none, [cDate, cClose],
          [[Cell.dt 20240102, Cell.num 1], [Cell.dt 20240102, Cell.num 2]]⟩ := by
  rfl

/-! ### Indicator engine lemmas -/

theorem rollingMean_length (w : Nat) (xs : List (Option ℚ)) :
    (rollingMean w xs).length = xs.length := by
  simp [rollingMean]

theorem ewmGo_length (a : ℚ) : ∀ (xs : List (Option ℚ)) (st : EwmState),
    (ewmGo a st xs).length = xs.length := by
  intro xs
  induction xs with
  | nil => intro st; rfl
  | cons x xs2 ih =>
    intro st
    simp only [ewmGo, List.length_cons]
    rw [ih]

theorem ewm_length (a : ℚ) (xs : List (Option ℚ)) : (ewm a xs).length = xs.length :=
  ewmGo_length a xs _

theorem cellNum_optNum (x : Option ℚ) : cellNum (optNum x) = x := by
  cases x <;> rfl

theorem map_cellNum_optNum (l : List (Option ℚ)) : (l.map optNum).map cellNum = l := by
  rw [List.map_map]
  have h : cellNum ∘ optNum = id := funext (fun x => cellNum_optNum x)
  rw [h, List.map_id]

theorem ewmGo_all_some (a : ℚ) : ∀ (xs : List ℚ) (m : ℚ),
    ewmGo a ⟨some m, 1⟩ (xs.map some) = (emaGoSpec a m xs).map some := by
  intro xs
  induction xs with
  | nil => intro m; rfl
  | cons x xs2 ih =>
    intro m
    simp only [List.map_cons, ewmGo, ewmStep, emaGoSpec]
    have hv : (1 * (1 - a) * m + a * x) / (1 * (1 - a) + a) = a * x + (1 - a) * m := by
      have hd : (1 : ℚ) * (1 - a) + a = 1 := by ring
      rw [hd, div_one]
      ring
    rw [hv]
    rw [ih (a * x + (1 - a) * m)]

theorem ewm_all_some (a : ℚ) (xs : List ℚ) :
    ewm a (xs.map some) = (emaRecSpec a xs).map some := by
  cases xs with
  | nil => rfl
  | cons x xs2 =>
    simp only [List.map_cons, ewm, ewmGo, ewmStep, emaRecSpec]
    rw [ewmGo_all_some]

theorem zipWith_optSub_map_some : ∀ (l1 l2 : List ℚ),
    List.zipWith optSub (l1.map some) (l2.map some)
      = (List.zipWith (fun x y => x - y) l1 l2).map some := by
  intro l1
  induction l1 with
  | nil => intro l2; simp
  | cons x xs ih =>
    intro l2
    cases l2 with
    | nil => simp
    | cons y ys =>
      simp only [List.map_cons, List.zipWith_cons_cons]
      rw [ih]
      rfl

theorem zipWith_macd_map_some : ∀ (l1 l2 : List ℚ),
    List.zipWith (fun x y => (optSub x y).map (fun z => 2 * z)) (l1.map some) (l2.map some)
      = (List.zipWith (fun x y => 2 * (x - y)) l1 l2).map some := by
  intro l1
  induction l1 with
  | nil => intro l2; simp
  | cons x xs ih =>
    intro l2
    cases l2 with
    | nil => simp
    | cons y ys =>
      simp only [List.map_cons, List.zipWith_cons_cons]
      rw [ih]
      rfl

theorem calc_cols (t : Table) (hWF : t.WF) :
    (calculate_technical_indicators t).col cClose = t.col cClose
    ∧ (calculate_technical_indicators t).col cMA5
        = (rollingMean 5 ((t.col cClose).map cellNum)).map optNum
    ∧ (calculate_technical_indicators t).col cMA20
        = (rollingMean 20 ((t.col cClose).map cellNum)).map optNum
    ∧ (calculate_technical_indicators t).col cMA50
        = (rollingMean 50 ((t.col cClose).map cellNum)).map optNum
    ∧ (calculate_technical_indicators t).col cDIF
        = (List.zipWith optSub (ewm (2 / 13) ((t.col cClose).map cellNum))
            (ewm (2 / 27) ((t.col cClose).map cellNum))).map optNum
    ∧ (calculate_technical_indicators t).col cDEA
        = (ewm (2 / 10) (List.zipWith optSub (ewm (2 / 13) ((t.col cClose).map cellNum))
            (ewm (2 / 27) ((t.col cClose).map cellNum)))).map optNum
    ∧ (calculate_technical_indicators t).col cMACD
        = (List.zipWith (fun x y => (optSub x y).map (fun z => 2 * z))
            (List.zipWith optSub (ewm (2 / 13) ((t.col cClose).map cellNum))
              (ewm (2 / 27) ((t.col cClose).map cellNum)))
            (ewm (2 / 10) (List.zipWith optSub (ewm (2 / 13) ((t.col cClose).map cellNum))
              (ewm (2 / 27) ((t.col cClose).map cellNum))))).map optNum
    ∧ (calculate_technical_indicators t).WF
    ∧ (calculate_technical_indicators t).rows.length = t.rows.length := by
  simp only [calculate_technical_indicators]
  set c0 := (t.col cClose).map cellNum with hc0
  have hlc0 : c0.length = t.rows.length := by rw [hc0]; simp [col_length]
  set v5 := (rollingMean 5 c0).map optNum with hv5
  set v20 := (rollingMean 20 c0).map optNum with hv20
  set v50 := (rollingMean 50 c0).map optNum with hv50
  set d0 := List.zipWith optSub (ewm (2 / 13) c0) (ewm (2 / 27) c0) with hd0
  set vdif := d0.map optNum with hvdif
  have hl5 : v5.length = t.rows.length := by rw [hv5]; simp [rollingMean_length, hlc0]
  have hl20 : v20.length = t.rows.length := by rw [hv20]; simp [rollingMean_length, hlc0]
  have hl50 : v50.length = t.rows.length := by rw [hv50]; simp [rollingMean_length, hlc0]
  have hld0 : d0.length = t.rows.length := by
    rw [hd0]; simp [List.length_zipWith, ewm_length, hlc0]
  have hldif : vdif.length = t.rows.length := by rw [hvdif]; simp [hld0]
  set u1 := t.setCol cMA5 v5 with hu1
  have hWF1 : u1.WF := by rw [hu1]; exact setCol_WF t cMA5 v5 hWF hl5
  have hr1 : u1.rows.length = t.rows.length := by
    rw [hu1, setCol_rows_length t cMA5 v5 hl5]
  have hc1close : u1.col cClose = t.col cClose := by
    rw [hu1, setCol_col_ne t cMA5 cClose v5 (by decide) hWF hl5]
  have hc1m5 : u1.col cMA5 = v5 := by rw [hu1]; exact setCol_col t cMA5 v5 hWF hl5
  set u2 := u1.setCol cMA20 v20 with hu2
  have hlen20 : v20.length = u1.rows.length := by rw [hr1]; exact hl20
  have hWF2 : u2.WF := by rw [hu2]; exact setCol_WF u1 cMA20 v20 hWF1 hlen20
  have hr2 : u2.rows.length = t.rows.length := by
    rw [hu2, setCol_rows_length u1 cMA20 v20 hlen20, hr1]
  have hc2close : u2.col cClose = t.col cClose := by
    rw [hu2, setCol_col_ne u1 cMA20 cClose v20 (by decide) hWF1 hlen20, hc1close]
  have hc2m5 : u2.col cMA5 = v5 := by
    rw [hu2, setCol_col_ne u1 cMA20 cMA5 v20 (by decide) hWF1 hlen20, hc1m5]
  have hc2m20 : u2.col cMA20 = v20 := by
    rw [hu2]; exact setCol_col u1 cMA20 v20 hWF1 hlen20
  set u3 := u2.setCol cMA50 v50 with hu3
  have hlen50 : v50.length = u2.rows.length := by rw [hr2]; exact hl50
  have hWF3 : u3.WF := by rw [hu3]; exact setCol_WF u2 cMA50 v50 hWF2 hlen50
  have hr3 : u3.rows.length = t.rows.length := by
    rw [hu3, setCol_rows_length u2 cMA50 v50 hlen50, hr2]
  have hc3close : u3.col cClose = t.col cClose := by
    rw [hu3, setCol_col_ne u2 cMA50 cClose v50 (by decide) hWF2 hlen50, hc2close]
  have hc3m5 : u3.col cMA5 = v5 := by
    rw [hu3, setCol_col_ne u2 cMA50 cMA5 v50 (by decide) hWF2 hlen50, hc2m5]
  have hc3m20 : u3.col cMA20 = v20 := by
    rw [hu3, setCol_col_ne u2 cMA50 cMA20 v50 (by decide) hWF2 hlen50, hc2m20]
  have hc3m50 : u3.col cMA50 = v50 := by
    rw [hu3]; exact setCol_col u2 cMA50 v50 hWF2 hlen50
  set u4 := u3.setCol cDIF vdif with hu4
  have hlendif : vdif.length = u3.rows.length := by rw [hr3]; exact hldif
  have hWF4 : u4.WF := by rw [hu4]; exact setCol_WF u3 cDIF vdif hWF3 hlendif
  have hr4 : u4.rows.length = t.rows.length := by
    rw [hu4, setCol_rows_length u3 cDIF vdif hlendif, hr3]
  have hc4close : u4.col cClose = t.col cClose := by
    rw [hu4, setCol_col_ne u3 cDIF cClose vdif (by decide) hWF3 hlendif, hc3close]
  have hc4m5 : u4.col cMA5 = v5 := by
    rw [hu4, setCol_col_ne u3 cDIF cMA5 vdif (by decide) hWF3 hlendif, hc3m5]
  have hc4m20 : u4.col cMA20 = v20 := by
    rw [hu4, setCol_col_ne u3 cDIF cMA20 vdif (by decide) hWF3 hlendif, hc3m20]
  have hc4m50 : u4.col cMA50 = v50 := by
    rw [hu4, setCol_col_ne u3 cDIF cMA50 vdif (by decide) hWF3 hlendif, hc3m50]
  have hc4dif : u4.col cDIF = vdif := by
    rw [hu4]; exact setCol_col u3 cDIF vdif hWF3 hlendif
  have hdifread : (u4.col cDIF).map cellNum = d0 := by
    rw [hc4dif, hvdif, map_cellNum_optNum]
  rw [hdifread]
  set vdea := (ewm (2 / 10) d0).map optNum with hvdea
  have hldea : vdea.length = t.rows.length := by rw [hvdea]; simp [ewm_length, hld0]
  set u5 := u4.setCol cDEA vdea with hu5
  have hlendea : vdea.length = u4.rows.length := by rw [hr4]; exact hldea
  have hWF5 : u5.WF := by rw [hu5]; exact setCol_WF u4 cDEA vdea hWF4 hlendea
  have hr5 : u5.rows.length = t.rows.length := by
    rw [hu5, setCol_rows_length u4 cDEA vdea hlendea, hr4]
  have hc5close : u5.col cClose = t.col cClose := by
    rw [hu5, setCol_col_ne u4 cDEA cClose vdea (by decide) hWF4 hlendea, hc4close]
  have hc5m5 : u5.col cMA5 = v5 := by
    rw [hu5, setCol_col_ne u4 cDEA cMA5 vdea (by decide) hWF4 hlendea, hc4m5]
  have hc5m20 : u5.col cMA20 = v20 := by
    rw [hu5, setCol_col_ne u4 cDEA cMA20 vdea (by decide) hWF4 hlendea, hc4m20]
  have hc5m50 : u5.col cMA50 = v50 := by
    rw [hu5, setCol_col_ne u4 cDEA cMA50 vdea (by decide) hWF4 hlendea, hc4m50]
  have hc5dif : u5.col cDIF = vdif := by
    rw [hu5, setCol_col_ne u4 cDEA cDIF vdea (by decide) hWF4 hlendea, hc4dif]
  have hc5dea : u5.col cDEA = vdea := by
    rw [hu5]; exact setCol_col u4 cDEA vdea hWF4 hlendea
  have hdearead : (u5.col cDEA).map cellNum = ewm (2 / 10) d0 := by
    rw [hc5dea, hvdea, map_cellNum_optNum]
  rw [hdearead]
  set vmacd := (List.zipWith (fun x y => (optSub x y).map (fun z => 2 * z))
      d0 (ewm (2 / 10) d0)).map optNum with hvmacd
  have hlmacd : vmacd.length = t.rows.length := by
    rw [hvmacd]; simp [List.length_zipWith, ewm_length, hld0]
  have hlenmacd : vmacd.length = u5.rows.length := by rw [hr5]; exact hlmacd
  refine ⟨?_, ?_, ?_, ?_, ?_, ?_, ?_, ?_, ?_⟩
  · rw [setCol_col_ne u5 cMACD cClose vmacd (by decide) hWF5 hlenmacd, hc5close]
  · rw [setCol_col_ne u5 cMACD cMA5 vmacd (by decide) hWF5 hlenmacd, hc5m5]
  · rw [setCol_col_ne u5 cMACD cMA20 vmacd (by decide) hWF5 hlenmacd, hc5m20]
  · rw [setCol_col_ne u5 cMACD cMA50 vmacd (by decide) hWF5 hlenmacd, hc5m50]
  · rw [setCol_col_ne u5 cMACD cDIF vmacd (by decide) hWF5 hlenmacd, hc5dif]
  · rw [setCol_col_ne u5 cMACD cDEA vmacd (by decide) hWF5 hlenmacd, hc5dea]
  · exact setCol_col u5 cMACD vmacd hWF5 hlenmacd
  · exact setCol_WF u5 cMACD vmacd hWF5 hlenmacd
  · rw [setCol_rows_length u5 cMACD vmacd hlenmacd, hr5]

/-- C6: with every close set, the rolling mean with `min_periods=1`
satisfies `MA_w[i] = mean(close[max(0, i-w+1) .. i])` for every window
`w ≥ 1` and index `i`; in particular for a series of length `k < w`
the last value `MA_w[k-1]` is the mean of all `k` closes — defined,
not unset. -/
theorem C6_moving_average (xs : List ℚ) (w i : Nat) (hw : 1 ≤ w) (hi : i < xs.length) :
    (rollingMean w (xs.map some))[i]?
      = some (some (((xs.take (i + 1)).drop (i + 1 - w)).sum
          / (((xs.take (i + 1)).drop (i + 1 - w)).length : ℚ)))
    ∧ (xs.length < w →
        (rollingMean w (xs.map some))[xs.length - 1]?
          = some (some (xs.sum / (xs.length : ℚ)))) := by
  have hgen : ∀ j, j < xs.length →
      (rollingMean w (xs.map some))[j]?
        = some (some (((xs.take (j + 1)).drop (j + 1 - w)).sum
            / (((xs.take (j + 1)).drop (j + 1 - w)).length : ℚ))) := by
    intro j hj
    unfold rollingMean
    rw [List.getElem?_map, List.getElem?_range (by simpa using hj)]
    simp only [Option.map_some']
    congr 1
    simp only [rollingMeanAt, windowSlice]
    have hslice : List.filterMap id (((xs.map some).take (j + 1)).drop (j + 1 - w))
        = (xs.take (j + 1)).drop (j + 1 - w) := by
      rw [← List.map_take, ← List.map_drop, List.filterMap_map]
      simp
    rw [hslice]
    have hlen : ¬ ((xs.take (j + 1)).drop (j + 1 - w)).length = 0 := by
      rw [List.length_drop, List.length_take]
      omega
    rw [if_neg hlen]
  refine ⟨hgen i hi, ?_⟩
  intro hlt
  have h0 : 0 < xs.length := lt_of_le_of_lt (Nat.zero_le i) hi
  have h := hgen (xs.length - 1) (by omega)
  rw [h]
  have h1 : xs.length - 1 + 1 = xs.length := by omega
  have h2 : xs.length - 1 + 1 - w = 0 := by omega
  rw [h1] at h2 ⊢
  rw [h2, List.drop_zero, List.take_length]

/-- C6 witness: with closes `[1,2,3]` and window 5, index 1 gives the
shrinking-window mean `3/2` and the last index gives `2`, the mean of
all three closes. -/
theorem C6_moving_average_witness :
    (rollingMean 5 (([1, 2, 3] : List ℚ).map some))[1]? = some (some (3 / 2))
    ∧ (rollingMean 5 (([1, 2, 3] : List ℚ).map some))[2]? = some (some 2) := by
  have h := C6_moving_average [1, 2, 3] 5 1 (by norm_num) (by norm_num)
  constructor
  · rw [h.1]
    norm_num
  · have h2 := h.2 (by norm_num)
    rw [show (([1, 2, 3] : List ℚ).length - 1) = 2 from by norm_num] at h2
    rw [h2]
    norm_num

/-! ### Entry-level characterizations for C8 -/

theorem rollingMean_entry_some (w : Nat) (hw : 1 ≤ w) (xs : List (Option ℚ)) (i : Nat) (q : ℚ)
    (h : xs[i]? = some (some q)) :
    ∃ r, (rollingMean w xs)[i]? = some (some r) := by
  have hi : i < xs.length := by
    rcases List.getElem?_eq_some.mp h with ⟨h1, _⟩
    exact h1
  unfold rollingMean
  rw [List.getElem?_map, List.getElem?_range (by simpa using hi), Option.map_some']
  simp only [rollingMeanAt, windowSlice]
  have hmem : some q ∈ (xs.take (i + 1)).drop (i + 1 - w) := by
    rw [List.mem_iff_getElem?]
    refine ⟨i - (i + 1 - w), ?_⟩
    rw [List.getElem?_drop, List.getElem?_take]
    have hcalc : i + 1 - w + (i - (i + 1 - w)) = i := by omega
    rw [hcalc, if_pos (by omega)]
    exact h
  have hq : q ∈ List.filterMap id ((xs.take (i + 1)).drop (i + 1 - w)) := by
    rw [List.mem_filterMap]
    exact ⟨some q, hmem, rfl⟩
  have hne : ¬ (List.filterMap id ((xs.take (i + 1)).drop (i + 1 - w))).length = 0 := by
    intro h0
    rw [List.length_eq_zero] at h0
    rw [h0] at hq
    exact absurd hq (List.not_mem_nil q)
  rw [if_neg hne]
  exact ⟨_, rfl⟩

theorem rollingMean_entry_na (w : Nat) (xs : List (Option ℚ)) (i : Nat) (hi : i < xs.length)
    (hpre : ∀ j, j ≤ i → xs[j]? = some none) :
    (rollingMean w xs)[i]? = some none := by
  unfold rollingMean
  rw [List.getElem?_map, List.getElem?_range (by simpa using hi), Option.map_some']
  simp only [rollingMeanAt, windowSlice]
  have hempty : List.filterMap id ((xs.take (i + 1)).drop (i + 1 - w)) = [] := by
    rw [List.filterMap_eq_nil_iff]
    intro a ha
    rw [List.mem_iff_getElem?] at ha
    obtain ⟨k, hk⟩ := ha
    rw [List.getElem?_drop, List.getElem?_take] at hk
    by_cases hcond : i + 1 - w + k < i + 1
    · rw [if_pos hcond] at hk
      rw [hpre (i + 1 - w + k) (by omega)] at hk
      rw [← Option.some.inj hk]
      rfl
    · rw [if_neg hcond] at hk
      exact absurd hk (by simp)
  rw [hempty]
  simp

theorem ewmStep_mean_isSome (a : ℚ) (st : EwmState) (x : Option ℚ) :
    (ewmStep a st x).mean.isSome = (st.mean.isSome || x.isSome) := by
  cases hm : st.mean <;> cases hx : x <;> simp [ewmStep, hm, hx]

theorem ewmGo_entry_isSome (a : ℚ) : ∀ (xs : List (Option ℚ)) (st : EwmState) (i : Nat),
    i < xs.length →
    ∃ y, (ewmGo a st xs)[i]? = some y
      ∧ (y.isSome = true ↔ (st.mean.isSome = true ∨ ∃ j, j ≤ i ∧ ∃ q, xs[j]? = some (some q))) := by
  intro xs
  induction xs with
  | nil => intro st i hi; simp at hi
  | cons x xs2 ih =>
    intro st i hi
    simp only [ewmGo]
    cases i with
    | zero =>
      refine ⟨(ewmStep a st x).mean, by simp, ?_⟩
      constructor
      · intro hy
        have h2 : (st.mean.isSome || x.isSome) = true := by
          rw [← ewmStep_mean_isSome a st x]
          exact hy
        rw [Bool.or_eq_true] at h2
        rcases h2 with h3 | h3
        · exact Or.inl h3
        · rcases Option.isSome_iff_exists.mp h3 with ⟨q, hqx⟩
          exact Or.inr ⟨0, Nat.le_refl 0, q, by rw [hqx]; simp⟩
      · intro hcase
        rw [ewmStep_mean_isSome, Bool.or_eq_true]
        rcases hcase with h | ⟨j, hj, q, hq⟩
        · exact Or.inl h
        · have hj0 : j = 0 := Nat.le_zero.mp hj
          rw [hj0] at hq
          have hx : x = some q := by simpa using hq
          right
          rw [hx]
          rfl
    | succ i2 =>
      have hi2 : i2 < xs2.length := by simpa using hi
      obtain ⟨y, hy1, hy2⟩ := ih (ewmStep a st x) i2 hi2
      refine ⟨y, by simpa using hy1, ?_⟩
      constructor
      · intro hy
        rcases hy2.mp hy with h | ⟨j, hj, q, hq⟩
        · have h2 : (st.mean.isSome || x.isSome) = true := by
            rw [← ewmStep_mean_isSome a st x]
            exact h
          rw [Bool.or_eq_true] at h2
          rcases h2 with h3 | h3
          · exact Or.inl h3
          · rcases Option.isSome_iff_exists.mp h3 with ⟨q, hqx⟩
            exact Or.inr ⟨0, Nat.zero_le _, q, by rw [hqx]; simp⟩
        · exact Or.inr ⟨j + 1, by omega, q, by simpa using hq⟩
      · intro hcase
        apply hy2.mpr
        rcases hcase with h | ⟨j, hj, q, hq⟩
        · left
          rw [ewmStep_mean_isSome, Bool.or_eq_true]
          exact Or.inl h
        · cases j with
          | zero =>
            left
            rw [ewmStep_mean_isSome, Bool.or_eq_true]
            right
            have hx : x = some q := by simpa using hq
            rw [hx]
            rfl
          | succ j2 =>
            right
            exact ⟨j2, by omega, q, by simpa using hq⟩

theorem ewm_entry_isSome (a : ℚ) (xs : List (Option ℚ)) (i : Nat) (hi : i < xs.length) :
    ∃ y, (ewm a xs)[i]? = some y
      ∧ (y.isSome = true ↔ ∃ j, j ≤ i ∧ ∃ q, xs[j]? = some (some q)) := by
  obtain ⟨y, h1, h2⟩ := ewmGo_entry_isSome a xs ⟨none, 1⟩ i hi
  refine ⟨y, h1, ?_⟩
  rw [h2]
  simp

theorem optSub_isSome (y1 y2 : Option ℚ) :
    (optSub y1 y2).isSome = (y1.isSome && y2.isSome) := by
  cases y1 <;> cases y2 <;> rfl

theorem dif_entry_isSome (a1 a2 : ℚ) (xs : List (Option ℚ)) (i : Nat) (hi : i < xs.length) :
    ∃ y, (List.zipWith optSub (ewm a1 xs) (ewm a2 xs))[i]? = some y
      ∧ (y.isSome = true ↔ ∃ j, j ≤ i ∧ ∃ q, xs[j]? = some (some q)) := by
  obtain ⟨y1, h1, hy1⟩ := ewm_entry_isSome a1 xs i hi
  obtain ⟨y2, h2, hy2⟩ := ewm_entry_isSome a2 xs i hi
  refine ⟨optSub y1 y2, by rw [List.getElem?_zipWith, h1, h2], ?_⟩
  constructor
  · intro h
    rw [optSub_isSome, Bool.and_eq_true] at h
    exact hy1.mp h.1
  · intro h
    rw [optSub_isSome, Bool.and_eq_true]
    exact ⟨hy1.mpr h, hy2.mpr h⟩

theorem dea_entry_isSome (a1 a2 a3 : ℚ) (xs : List (Option ℚ)) (i : Nat) (hi : i < xs.length) :
    ∃ y, (ewm a3 (List.zipWith optSub (ewm a1 xs) (ewm a2 xs)))[i]? = some y
      ∧ (y.isSome = true ↔ ∃ j, j ≤ i ∧ ∃ q, xs[j]? = some (some q)) := by
  have hlen : (List.zipWith optSub (ewm a1 xs) (ewm a2 xs)).length = xs.length := by
    simp [List.length_zipWith, ewm_length]
  obtain ⟨y, h1, h2⟩ := ewm_entry_isSome a3 _ i (by rw [hlen]; exact hi)
  refine ⟨y, h1, ?_⟩
  rw [h2]
  constructor
  · rintro ⟨j, hj, q, hq⟩
    have hji : j < xs.length := by omega
    obtain ⟨yj, hj1, hj2⟩ := dif_entry_isSome a1 a2 xs j hji
    rw [hj1] at hq
    have hyj : yj = some q := Option.some.inj hq
    have : yj.isSome = true := by rw [hyj]; rfl
    obtain ⟨k, hk, qk, hqk⟩ := hj2.mp this
    exact ⟨k, by omega, qk, hqk⟩
  · rintro ⟨j, hj, q, hq⟩
    have hji : j < xs.length := by
      rcases List.getElem?_eq_some.mp hq with ⟨h3, _⟩
      omega
    obtain ⟨yj, hj1, hj2⟩ := dif_entry_isSome a1 a2 xs j hji
    have : yj.isSome = true := hj2.mpr ⟨j, Nat.le_refl j, q, hq⟩
    rcases Option.isSome_iff_exists.mp this with ⟨r, hr⟩
    exact ⟨j, hj, r, by rw [hj1, hr]⟩

theorem map_optNum_entry_num (L : List (Option ℚ)) (i : Nat) (r : ℚ) :
    (L.map optNum)[i]? = some (Cell.num r) ↔ L[i]? = some (some r) := by
  rw [List.getElem?_map]
  cases hL : L[i]? with
  | none => simp
  | some y => cases y <;> simp [optNum]

theorem map_optNum_entry_na (L : List (Option ℚ)) (i : Nat) :
    (L.map optNum)[i]? = some Cell.na ↔ L[i]? = some none := by
  rw [List.getElem?_map]
  cases hL : L[i]? with
  | none => simp
  | some y => cases y <;> simp [optNum]

/-- C8 (amended): a missing close does not poison the indicators, but
it does not leave a gap at its own index either: a set close at index
`i` always yields a numeric MA5 and DIF at `i`; the MACD family (DIF,
DEA, MACD) is numeric at `i` exactly when some close at an index ≤ `i`
is set (the last average is carried forward across gaps); and the
indicators are unset at `i` only while every close up to `i` is
missing.  Missing inputs are skipped/decayed, never zero-filled. -/
theorem C8_missing_close (t : Table) (hWF : t.WF) :
    (∀ (i : Nat) (q : ℚ), ((t.col cClose).map cellNum)[i]? = some (some q) →
        (∃ r, ((calculate_technical_indicators t).col cMA5)[i]? = some (Cell.num r))
        ∧ (∃ r, ((calculate_technical_indicators t).col cDIF)[i]? = some (Cell.num r)))
    ∧ (∀ i : Nat, i < t.rows.length →
        ((∃ r, ((calculate_technical_indicators t).col cDIF)[i]? = some (Cell.num r))
          ↔ ∃ j, j ≤ i ∧ ∃ q, ((t.col cClose).map cellNum)[j]? = some (some q)))
    ∧ (∀ i : Nat, i < t.rows.length →
        ((∃ r, ((calculate_technical_indicators t).col cDEA)[i]? = some (Cell.num r))
          ↔ ∃ j, j ≤ i ∧ ∃ q, ((t.col cClose).map cellNum)[j]? = some (some q)))
    ∧ (∀ i : Nat, i < t.rows.length →
        (∀ j, j ≤ i → ((t.col cClose).map cellNum)[j]? = some none) →
        ((calculate_technical_indicators t).col cMA5)[i]? = some Cell.na
        ∧ ((calculate_technical_indicators t).col cDIF)[i]? = some Cell.na) := by
  obtain ⟨hclose, hm5, hm20, hm50, hdif, hdea, hmacd, hWFu, hru⟩ := calc_cols t hWF
  have hlen : ((t.col cClose).map cellNum).length = t.rows.length := by
    simp [col_length]
  refine ⟨?_, ?_, ?_, ?_⟩
  · intro i q hq
    have hi : i < ((t.col cClose).map cellNum).length := by
      rcases List.getElem?_eq_some.mp hq with ⟨h1, _⟩
      exact h1
    constructor
    · obtain ⟨r, hr⟩ := rollingMean_entry_some 5 (by norm_num) _ i q hq
      refine ⟨r, ?_⟩
      rw [hm5, map_optNum_entry_num]
      exact hr
    · obtain ⟨y, hy1, hy2⟩ := dif_entry_isSome (2 / 13) (2 / 27) _ i hi
      have hys : y.isSome = true := hy2.mpr ⟨i, Nat.le_refl i, q, hq⟩
      rcases Option.isSome_iff_exists.mp hys with ⟨r, hr⟩
      refine ⟨r, ?_⟩
      rw [hdif, map_optNum_entry_num]
      rw [hy1, hr]
  · intro i hi
    obtain ⟨y, hy1, hy2⟩ := dif_entry_isSome (2 / 13) (2 / 27) _ i (by rw [hlen]; exact hi)
    constructor
    · rintro ⟨r, hr⟩
      rw [hdif, map_optNum_entry_num] at hr
      rw [hy1] at hr
      have hys : y.isSome = true := by rw [Option.some.inj hr]; rfl
      exact hy2.mp hys
    · intro h
      have hys : y.isSome = true := hy2.mpr h
      rcases Option.isSome_iff_exists.mp hys with ⟨r, hr⟩
      refine ⟨r, ?_⟩
      rw [hdif, map_optNum_entry_num, hy1, hr]
  · intro i hi
    obtain ⟨y, hy1, hy2⟩ := dea_entry_isSome (2 / 13) (2 / 27) (2 / 10) _ i (by rw [hlen]; exact hi)
    constructor
    · rintro ⟨r, hr⟩
      rw [hdea, map_optNum_entry_num] at hr
      rw [hy1] at hr
      have hys : y.isSome = true := by rw [Option.some.inj hr]; rfl
      exact hy2.mp hys
    · intro h
      have hys : y.isSome = true := hy2.mpr h
      rcases Option.isSome_iff_exists.mp hys with ⟨r, hr⟩
      refine ⟨r, ?_⟩
      rw [hdea, map_optNum_entry_num, hy1, hr]
  · intro i hi hpre
    constructor
    · rw [hm5, map_optNum_entry_na]
      exact rollingMean_entry_na 5 _ i (by rw [hlen]; exact hi) hpre
    · rw [hdif, map_optNum_entry_na]
      obtain ⟨y, hy1, hy2⟩ := dif_entry_isSome (2 / 13) (2 / 27) _ i (by rw [hlen]; exact hi)
      have hnone : y = none := by
        rcases hy : y with _ | r
        · rfl
        · have hys : y.isSome = true := by rw [hy]; rfl
          obtain ⟨j, hj, q, hq⟩ := hy2.mp hys
          rw [hpre j hj] at hq
          exact absurd (Option.some.inj hq) (by simp)
      rw [hy1, hnone]

/-- C8 witness: on the gapped series `[1, missing, 2]`, the set close
at index 0 gives numeric MA5 and DIF there, and index 2 (after the
gap) has a numeric DIF because a close at index 0 is set. -/
theorem C8_missing_close_witness :
    ((∃ r, ((calculate_technical_indicators gapCloseTable).col cMA5)[0]? = some (Cell.num r))
      ∧ (∃ r, ((calculate_technical_indicators gapCloseTable).col cDIF)[0]? = some (Cell.num r)))
    ∧ (∃ r, ((calculate_technical_indicators gapCloseTable).col cDIF)[2]? = some (Cell.num r)) := by
  have h := C8_missing_close gapCloseTable (by unfold Table.WF; decide)
  refine ⟨h.1 0 1 (by decide), ?_⟩
  exact (h.2.1 2 (by decide)).mpr ⟨0, by omega, 1, by decide⟩

/-- C8 counterexample: with closes `[1, missing, 2]` the claim says
the indicators at index 1 are unset; in fact MA5 at index 1 is 1 (the
mean of the set closes in its window) and DIF at index 1 is 0 (the
carried-forward EMAs) — both set, not unset. -/
theorem C8_counterexample :
    ((calculate_technical_indicators gapCloseTable).col cMA5)[1]? = some (Cell.num 1)
    ∧ ((calculate_technical_indicators gapCloseTable).col cDIF)[1]? = some (Cell.num 0)
    ∧ (gapCloseTable.col cClose)[1]? = some Cell.na := by
  obtain ⟨hclose, hm5, hm20, hm50, hdif, hdea, hmacd, hWFu, hru⟩ :=
    calc_cols gapCloseTable (by unfold Table.WF; decide)
  have hc : (gapCloseTable.col cClose).map cellNum = [some 1, none, some 2] := by rfl
  refine ⟨?_, ?_, by rfl⟩
  · rw [hm5, hc]
    have h1 : (rollingMean 5 [some 1, none, some (2 : ℚ)])[1]?
        = some (some (List.sum [(1 : ℚ)] / (List.length [(1 : ℚ)] : ℚ))) := by rfl
    rw [List.getElem?_map, h1]
    simp only [Option.map_some', optNum]
    norm_num
  · rw [hdif, hc]
    have h2 : (List.zipWith optSub (ewm (2 / 13) [some 1, none, some (2 : ℚ)])
        (ewm (2 / 27) [some 1, none, some (2 : ℚ)]))[1]?
        = some (some ((1 : ℚ) - 1)) := by rfl
    rw [List.getElem?_map, h2]
    simp only [Option.map_some', optNum]
    norm_num

/-- C7: with all closes set, the engine's EMA is exactly the spec
recurrence `EMA[0]=close[0]`, `EMA[i]=α·close[i]+(1-α)·EMA[i-1]` with
`α = 2/(span+1)` for every span, and the MACD family satisfies
`DIF = EMA12 - EMA26`, `DEA = EMA(DIF, span 9)` (α = 2/10), and
`MACD_hist = 2·(DIF - DEA)` at every index. -/
theorem C7_macd_family (t : Table) (closes : List ℚ) (hWF : t.WF)
    (hclose : t.col cClose = closes.map Cell.num) :
    (∀ span : Nat, ewm (2 / ((span : ℚ) + 1)) (closes.map some)
        = (emaRecSpec (2 / ((span : ℚ) + 1)) closes).map some)
    ∧ (calculate_technical_indicators t).col cDIF
        = (List.zipWith (fun x y => x - y) (emaRecSpec (2 / 13) closes)
            (emaRecSpec (2 / 27) closes)).map Cell.num
    ∧ (calculate_technical_indicators t).col cDEA
        = (emaRecSpec (2 / 10) (List.zipWith (fun x y => x - y) (emaRecSpec (2 / 13) closes)
            (emaRecSpec (2 / 27) closes))).map Cell.num
    ∧ (calculate_technical_indicators t).col cMACD
        = (List.zipWith (fun x y => 2 * (x - y))
            (List.zipWith (fun x y => x - y) (emaRecSpec (2 / 13) closes)
              (emaRecSpec (2 / 27) closes))
            (emaRecSpec (2 / 10) (List.zipWith (fun x y => x - y) (emaRecSpec (2 / 13) closes)
              (emaRecSpec (2 / 27) closes)))).map Cell.num := by
  obtain ⟨hcl, hm5, hm20, hm50, hdif, hdea, hmacd, hWFu, hru⟩ := calc_cols t hWF
  have hc0 : (t.col cClose).map cellNum = closes.map some := by
    rw [hclose, List.map_map]
    rfl
  have hmos : ∀ (l : List ℚ), (l.map some).map optNum = l.map Cell.num := by
    intro l
    rw [List.map_map]
    rfl
  refine ⟨?_, ?_, ?_, ?_⟩
  · intro span
    exact ewm_all_some _ closes
  · rw [hdif, hc0, ewm_all_some, ewm_all_some, zipWith_optSub_map_some, hmos]
  · rw [hdea, hc0, ewm_all_some, ewm_all_some, zipWith_optSub_map_some, ewm_all_some, hmos]
  · rw [hmacd, hc0, ewm_all_some, ewm_all_some, zipWith_optSub_map_some, ewm_all_some,
      zipWith_macd_map_some, hmos]

/-- C7 witness: the DIF column of a two-bar table equals the spec-side
EMA difference, and the span-9 EMA recurrence instance. -/
theorem C7_macd_family_witness :
    (calculate_technical_indicators
        ⟨none, [cClose], [[Cell.num 1], [Cell.num 2]]⟩).col cDIF
      = (List.zipWith (fun x y => x - y) (emaRecSpec (2 / 13) [1, 2])
          (emaRecSpec (2 / 27) [1, 2])).map Cell.num
    ∧ ewm (2 / (((9 : Nat) : ℚ) + 1)) (([1, 2] : List ℚ).map some)
      = (emaRecSpec (2 / (((9 : Nat) : ℚ) + 1)) [1, 2]).map some := by
  have h := C7_macd_family ⟨none, [cClose], [[Cell.num 1], [Cell.num 2]]⟩ [1, 2]
    (by unfold Table.WF; decide) (by rfl)
  exact ⟨h.2.1, h.1 9⟩

theorem setCol_self (t : Table) (c : ColName) (hWF : t.WF) (hm : c ∈ t.header) :
    t.setCol c (t.col c) = t := by
  unfold Table.setCol
  rw [if_pos ((colIdx_lt_iff_mem t c).mpr hm)]
  have hrows : t.rows.zipWith (fun r v => r.set (t.colIdx c) v) (t.col c) = t.rows := by
    unfold Table.col
    rw [List.zipWith_map_right, List.zipWith_same]
    have hcong : ∀ r ∈ t.rows, r.set (t.colIdx c) (r.getD (t.colIdx c) Cell.na) = r :=
      fun r hr => set_getD_self r _ (by rw [hWF r hr]; exact (colIdx_lt_iff_mem t c).mpr hm)
    rw [List.map_congr_left hcong]
    simp
  rw [hrows]

theorem calc_mem_header (t : Table) :
    cMA5 ∈ (calculate_technical_indicators t).header
    ∧ cMA20 ∈ (calculate_technical_indicators t).header
    ∧ cMA50 ∈ (calculate_technical_indicators t).header
    ∧ cDIF ∈ (calculate_technical_indicators t).header
    ∧ cDEA ∈ (calculate_technical_indicators t).header
    ∧ cMACD ∈ (calculate_technical_indicators t).header := by
  simp only [calculate_technical_indicators]
  refine ⟨?_, ?_, ?_, ?_, ?_, ?_⟩
  · exact mem_setCol_header_of_mem _ cMACD cMA5 _
      (mem_setCol_header_of_mem _ cDEA cMA5 _
        (mem_setCol_header_of_mem _ cDIF cMA5 _
          (mem_setCol_header_of_mem _ cMA50 cMA5 _
            (mem_setCol_header_of_mem _ cMA20 cMA5 _
              (mem_setCol_header _ cMA5 _)))))
  · exact mem_setCol_header_of_mem _ cMACD cMA20 _
      (mem_setCol_header_of_mem _ cDEA cMA20 _
        (mem_setCol_header_of_mem _ cDIF cMA20 _
          (mem_setCol_header_of_mem _ cMA50 cMA20 _
            (mem_setCol_header _ cMA20 _))))
  · exact mem_setCol_header_of_mem _ cMACD cMA50 _
      (mem_setCol_header_of_mem _ cDEA cMA50 _
        (mem_setCol_header_of_mem _ cDIF cMA50 _
          (mem_setCol_header _ cMA50 _)))
  · exact mem_setCol_header_of_mem _ cMACD cDIF _
      (mem_setCol_header_of_mem _ cDEA cDIF _
        (mem_setCol_header _ cDIF _))
  · exact mem_setCol_header_of_mem _ cMACD cDEA _
      (mem_setCol_header _ cDEA _)
  · exact mem_setCol_header _ cMACD _

/-- C9: the indicator computation is idempotent: recomputing on an
already-indicator-populated series overwrites every indicator column
(MA5, MA20, MA50, DIF, DEA, MACD) with identical values, leaving the
table unchanged. -/
theorem C9_idempotent (t : Table) (hWF : t.WF) :
    calculate_technical_indicators (calculate_technical_indicators t)
      = calculate_technical_indicators t := by
  obtain ⟨hclose, hm5, hm20, hm50, hdif, hdea, hmacd, hWFu, hru⟩ := calc_cols t hWF
  obtain ⟨hh5, hh20, hh50, hhdif, hhdea, hhmacd⟩ := calc_mem_header t
  set u := calculate_technical_indicators t with hu
  simp only [calculate_technical_indicators]
  rw [hclose]
  rw [← hm5, setCol_self u cMA5 hWFu hh5]
  rw [← hm20, setCol_self u cMA20 hWFu hh20]
  rw [← hm50, setCol_self u cMA50 hWFu hh50]
  rw [← hdif, setCol_self u cDIF hWFu hhdif]
  rw [hdif, map_cellNum_optNum]
  rw [← hdea, setCol_self u cDEA hWFu hhdea]
  rw [hdea, map_cellNum_optNum]
  rw [← hmacd, setCol_self u cMACD hWFu hhmacd]

/-- C9 witness: idempotence at the concrete gapped three-bar table. -/
theorem C9_idempotent_witness :
    calculate_technical_indicators (calculate_technical_indicators gapCloseTable)
      = calculate_technical_indicators gapCloseTable :=
  C9_idempotent gapCloseTable (by unfold Table.WF; decide)

end FaceAssistant
